import Mathlib

/-!
# Verification of the vocabulary class-mapping analyzers

Shallow embedding of the class-mapping discovery/validation code of this
repository, principally:

* `src/balanced_vocab_analyzer.py` (`BalancedEnhanced21kVocabAnalyzer`),
* `src/scripts/hybrid_analyzer.py` (`HybridVocabAnalyzer`),
* `src/scripts/python_efficientnet_classifier.py` (`_find_vocab_matches`).

Python floats are modelled as exact rationals (`ℚ`); none of the verified
properties depends on binary rounding.  Python dicts (which preserve
insertion order) are modelled as association lists with the corresponding
first-occurrence lookup, in-place assignment and ordered iteration.
Python strings are modelled as Lean `String`s; `str.lower` is modelled for
the ASCII letters (the vocabulary terms of the repository are plain ASCII).
-/

namespace VocabAnalyzer

/-- Division on `ℚ`, written with `Rat.divInt` so that it evaluates by kernel
reduction.  `qdiv_eq_div` shows it agrees with `(· / ·)` (with the usual
`x / 0 = 0` convention; in the sources every division is guarded so the
denominator is a positive count). -/
def qdiv (a b : ℚ) : ℚ := Rat.divInt (a.num * (b.den : Int)) ((a.den : Int) * b.num)

theorem qdiv_eq_div (a b : ℚ) : qdiv a b = a / b := by
  rw [qdiv, Rat.divInt_eq_div]
  push_cast
  rcases eq_or_ne b 0 with rfl | hb
  · simp
  · have h1 : ((a.den : ℚ)) ≠ 0 := Nat.cast_ne_zero.mpr (Rat.den_pos a).ne'
    have h2 : ((b.den : ℚ)) ≠ 0 := Nat.cast_ne_zero.mpr (Rat.den_pos b).ne'
    have hbn : ((b.num : ℚ)) ≠ 0 := by exact_mod_cast Rat.num_ne_zero.mpr hb
    have ha : (a.num : ℚ) = a * a.den := (div_eq_iff h1).mp (Rat.num_div_den a)
    have hbe : (b.num : ℚ) = b * b.den := (div_eq_iff h2).mp (Rat.num_div_den b)
    rw [div_eq_div_iff (mul_ne_zero h1 hbn) hb, ha, hbe]
    ring

/-- Multiplication on `ℚ`, written with `Rat.divInt` so that it evaluates by
kernel reduction (`Rat.mul` is `@[irreducible]` here); `qmul_eq_mul` shows it
agrees with `(· * ·)`. -/
def qmul (a b : ℚ) : ℚ := Rat.divInt (a.num * b.num) ((a.den : Int) * (b.den : Int))

theorem qmul_eq_mul (a b : ℚ) : qmul a b = a * b := by
  rw [qmul, Rat.divInt_eq_div]
  push_cast
  rw [← div_mul_div_comm, Rat.num_div_den, Rat.num_div_den]

/-- Addition on `ℚ`, likewise kernel-reducible; agrees with `(· + ·)`. -/
def qadd (a b : ℚ) : ℚ :=
  Rat.divInt (a.num * (b.den : Int) + b.num * (a.den : Int)) ((a.den : Int) * (b.den : Int))

theorem qadd_eq_add (a b : ℚ) : qadd a b = a + b := by
  have h1 : ((a.den : ℚ)) ≠ 0 := Nat.cast_ne_zero.mpr (Rat.den_pos a).ne'
  have h2 : ((b.den : ℚ)) ≠ 0 := Nat.cast_ne_zero.mpr (Rat.den_pos b).ne'
  rw [qadd, Rat.divInt_eq_div]
  push_cast
  conv_rhs => rw [← Rat.num_div_den a, ← Rat.num_div_den b, div_add_div _ _ h1 h2]
  ring_nf

/-- Subtraction on `ℚ`, likewise kernel-reducible; agrees with `(· - ·)`. -/
def qsub (a b : ℚ) : ℚ :=
  Rat.divInt (a.num * (b.den : Int) - b.num * (a.den : Int)) ((a.den : Int) * (b.den : Int))

theorem qsub_eq_sub (a b : ℚ) : qsub a b = a - b := by
  have h1 : ((a.den : ℚ)) ≠ 0 := Nat.cast_ne_zero.mpr (Rat.den_pos a).ne'
  have h2 : ((b.den : ℚ)) ≠ 0 := Nat.cast_ne_zero.mpr (Rat.den_pos b).ne'
  rw [qsub, Rat.divInt_eq_div]
  push_cast
  conv_rhs => rw [← Rat.num_div_den a, ← Rat.num_div_den b, div_sub_div _ _ h1 h2]
  ring_nf

/-! ## Association lists: the model of Python `dict` -/

/-- First-occurrence lookup, i.e. `d.get(k)` / `d[k]`. -/
def alistGet {α : Type} : List (Nat × α) → Nat → Option α
  | [], _ => none
  | p :: rest, k => if p.1 = k then some p.2 else alistGet rest k

/-- `k in d`. -/
def alistHas {α : Type} (l : List (Nat × α)) (k : Nat) : Bool := (alistGet l k).isSome

/-- Python dict assignment `d[k] = v`: replaces the value in place if the key
is present, otherwise appends the binding at the end (insertion order). -/
def alistSet {α : Type} : List (Nat × α) → Nat → α → List (Nat × α)
  | [], k, v => [(k, v)]
  | p :: rest, k, v => if p.1 = k then (k, v) :: rest else p :: alistSet rest k v

/-- `defaultdict(list)` append: `d[k].append(x)`. -/
def alistPush {α : Type} : List (Nat × List α) → Nat → α → List (Nat × List α)
  | [], k, x => [(k, [x])]
  | p :: rest, k, x => if p.1 = k then (p.1, p.2 ++ [x]) :: rest else p :: alistPush rest k x

/-- Python `d.update(u)`: assign every binding of `u` into `d`, in order. -/
def alistUpdate {α : Type} (l updates : List (Nat × α)) : List (Nat × α) :=
  updates.foldl (fun acc kv => alistSet acc kv.1 kv.2) l

theorem alistGet_set {α : Type} (l : List (Nat × α)) (k : Nat) (v : α) (c : Nat) :
    alistGet (alistSet l k v) c = if k = c then some v else alistGet l c := by
  induction l with
  | nil => by_cases h : k = c <;> simp [alistSet, alistGet, h]
  | cons p rest ih =>
    by_cases hp : p.1 = k
    · by_cases h : k = c <;> simp [alistSet, alistGet, hp, h]
    · simp only [alistSet, hp, if_false, alistGet]
      by_cases hc : p.1 = c
      · have : ¬ k = c := fun h => hp (h ▸ hc)
        simp [alistGet, hc, this]
      · simp [alistGet, hc, ih]

theorem alistGet_push {α : Type} (l : List (Nat × List α)) (k : Nat) (x : α) (c : Nat) :
    alistGet (alistPush l k x) c =
      if k = c then some ((alistGet l k).getD [] ++ [x]) else alistGet l c := by
  induction l with
  | nil => by_cases h : k = c <;> simp [alistPush, alistGet, h]
  | cons p rest ih =>
    by_cases hp : p.1 = k
    · by_cases h : k = c <;> simp [alistPush, alistGet, hp, h]
    · simp only [alistPush, hp, if_false, alistGet]
      by_cases hc : p.1 = c
      · have : ¬ k = c := fun h => hp (h ▸ hc)
        simp [alistGet, hc, this, hp]
      · simp [alistGet, hc, ih, hp]

theorem alistGet_mem {α : Type} {l : List (Nat × α)} {c : Nat} {v : α}
    (h : alistGet l c = some v) : (c, v) ∈ l := by
  induction l with
  | nil => simp [alistGet] at h
  | cons p rest ih =>
    simp only [alistGet] at h
    split at h
    · next hp => cases h; exact hp ▸ List.mem_cons_self _ _
    · exact List.mem_cons_of_mem _ (ih h)

theorem alistGet_append {α : Type} (l₁ l₂ : List (Nat × α)) (c : Nat) :
    alistGet (l₁ ++ l₂) c = ((alistGet l₁ c).map some).getD (alistGet l₂ c) := by
  induction l₁ with
  | nil => simp [alistGet]
  | cons p rest ih =>
    by_cases hp : p.1 = c <;> simp [alistGet, hp, ih]

theorem alistGet_update {α : Type} (l updates : List (Nat × α)) (c : Nat) :
    alistGet (alistUpdate l updates) c =
      ((alistGet updates.reverse c).map some).getD (alistGet l c) := by
  induction updates generalizing l with
  | nil => simp [alistUpdate, alistGet]
  | cons kv rest ih =>
    have : alistUpdate l (kv :: rest) = alistUpdate (alistSet l kv.1 kv.2) rest := rfl
    rw [this, ih]
    rw [List.reverse_cons, alistGet_append, alistGet_set]
    rcases h : alistGet rest.reverse c with _ | v
    · by_cases hk : kv.1 = c <;> simp [alistGet, hk]
    · simp [alistGet]

/-- `alistHas` of an update: a key is present iff it was present in either map. -/
theorem alistHas_update {α : Type} (l updates : List (Nat × α)) (c : Nat) :
    alistHas (alistUpdate l updates) c = (alistHas l c || alistHas updates.reverse c) := by
  simp only [alistHas, alistGet_update]
  rcases alistGet updates.reverse c with _ | v <;>
    rcases alistGet l c with _ | w <;> simp

/-- Splitting a successful lookup: the list decomposes at the first binding
of the key. -/
theorem alistGet_eq_some_split {α : Type} {l : List (Nat × α)} {c : Nat} {v : α}
    (h : alistGet l c = some v) :
    ∃ l₁ l₂, l = l₁ ++ (c, v) :: l₂ ∧ ∀ p ∈ l₁, p.1 ≠ c := by
  induction l with
  | nil => simp [alistGet] at h
  | cons p rest ih =>
    simp only [alistGet] at h
    split at h
    · next hp =>
      cases h
      refine ⟨[], rest, ?_, by simp⟩
      have hpe : p = (c, p.2) := by rw [← hp]
      rw [List.nil_append, ← hpe]
    · next hp =>
      obtain ⟨l₁, l₂, heq, hni⟩ := ih h
      refine ⟨p :: l₁, l₂, by simp [heq], ?_⟩
      intro q hq
      rcases List.mem_cons.mp hq with rfl | hq
      · exact hp
      · exact hni q hq

/-- With duplicate-free keys, every binding of the key equals the looked-up one. -/
theorem alistGet_unique {α : Type} {l : List (Nat × α)} {c : Nat} {v w : α}
    (hnd : (l.map Prod.fst).Nodup) (h : alistGet l c = some v) (hmem : (c, w) ∈ l) :
    w = v := by
  induction l with
  | nil => simp at hmem
  | cons p rest ih =>
    simp only [alistGet] at h
    simp only [List.map_cons, List.nodup_cons] at hnd
    rcases List.mem_cons.mp hmem with rfl | hmem'
    · rw [if_pos rfl] at h
      exact Option.some.inj h
    · split at h
      · next hp =>
        exact absurd (hp ▸ List.mem_map_of_mem Prod.fst hmem') hnd.1
      · exact ih hnd.2 h hmem'

/-! ## Python string operations -/

/-- `str.lower` on a single character, for the ASCII letters (the repository's
vocabulary is plain ASCII). -/
def pyCharLower (c : Char) : Char :=
  if 65 ≤ c.toNat ∧ c.toNat ≤ 90 then Char.ofNat (c.toNat + 32) else c

theorem charOfNat_toNat {m : Nat} (h : m < 55296) : (Char.ofNat m).toNat = m := by
  have hv : m.isValidChar := Or.inl h
  simp [Char.ofNat, hv, Char.ofNatAux, Char.toNat, UInt32.toNat]

theorem pyCharLower_not_upper (c : Char) :
    ¬ (65 ≤ (pyCharLower c).toNat ∧ (pyCharLower c).toNat ≤ 90) := by
  unfold pyCharLower
  split
  · next h =>
    have hv : (Char.ofNat (c.toNat + 32)).toNat = c.toNat + 32 :=
      charOfNat_toNat (by omega)
    omega
  · next h => exact h

theorem pyCharLower_idem (c : Char) : pyCharLower (pyCharLower c) = pyCharLower c := by
  have h := pyCharLower_not_upper c
  rw [pyCharLower, if_neg h]

/-- `str.lower` (ASCII model). -/
def pyLower (s : String) : String := ⟨s.data.map pyCharLower⟩

theorem pyLower_idem (s : String) : pyLower (pyLower s) = pyLower s := by
  apply congrArg String.mk
  show (s.data.map pyCharLower).map pyCharLower = s.data.map pyCharLower
  rw [List.map_map]
  exact List.map_congr_left (fun c _ => pyCharLower_idem c)

theorem pyLower_eq_empty_iff (s : String) : pyLower s = "" ↔ s = "" := by
  constructor
  · intro h
    have : s.data.map pyCharLower = [] := congrArg String.data h
    have : s.data = [] := List.map_eq_nil_iff.mp this
    exact congrArg String.mk this
  · intro h
    rw [h]
    rfl

/-- Python substring test `a in b`. -/
def isSubstr (a b : String) : Bool := decide (a.data <:+: b.data)

/-- `str.split()` with no argument: split on whitespace runs, dropping empty
pieces (auxiliary recursion carrying the current word, reversed). -/
def pyWordsAux : List Char → List Char → List String
  | [], acc => if acc.isEmpty then [] else [String.mk acc.reverse]
  | c :: cs, acc =>
    if c.isWhitespace then
      if acc.isEmpty then pyWordsAux cs [] else String.mk acc.reverse :: pyWordsAux cs []
    else pyWordsAux cs (c :: acc)

/-- `str.split()` (whitespace split, no empty words). -/
def pyWords (s : String) : List String := pyWordsAux s.data []

/-- Python truthiness of an optional string (`if not expected_vocab: ...`):
`None` and the empty string are falsy. -/
def optTruthy : Option String → Bool
  | none => false
  | some s => !(s = "")

/-! ## A stable sort (model of Python `list.sort`, which is stable) -/

/-- Insert before the first element that the new element may precede. -/
def stableInsert {α : Type} (le : α → α → Bool) (x : α) : List α → List α
  | [] => [x]
  | y :: ys => if le x y then x :: y :: ys else y :: stableInsert le x ys

/-- Stable insertion sort: for a total preorder `le` this produces the unique
sorted stable permutation, hence the same list as Python's stable `sort`. -/
def stableSort {α : Type} (le : α → α → Bool) : List α → List α
  | [] => []
  | x :: xs => stableInsert le x (stableSort le xs)

/-! ## Predictions

`get_top_predictions` returns, for each of the top-k class indices, a dict
with `class_idx` (a string we model by the numeric index), `confidence`
(the softmax probability) and `confidence_percent = confidence * 100`.
Rank fields are positional and are reconstructed positionally below. -/

structure Pred where
  class_idx : Nat
  confidence : ℚ
deriving DecidableEq, Repr

/-- `confidence_percent` as computed in `get_top_predictions`. -/
def confPercent (p : Pred) : ℚ := qmul 100 p.confidence

/-! ## Counters

`collections.Counter` over the expected-vocab terms of a list of
observations, and `most_common(1)[0]`: the first-inserted key among those of
maximal count (Python's `max`/`nlargest` keeps the first maximal element,
and `Counter` preserves first-insertion order of keys). -/

/-- First-occurrence deduplication (the key order of a `Counter`). -/
def dedupAux : List String → List String → List String
  | [], acc => acc.reverse
  | t :: ts, acc => if t ∈ acc then dedupAux ts acc else dedupAux ts (t :: acc)

def firstOccurrences (l : List String) : List String := dedupAux l []

/-- `max(counts, key=count)` keeping the first maximal element, over
`(term, count)` pairs; `("", 0)` is the (guarded, never reached) default. -/
def mostCommonAux (counts : List (String × Nat)) : String × Nat :=
  counts.foldl (fun best c => if c.2 > best.2 then c else best) ("", 0)

/-- `Counter(l).most_common(1)[0]` for the multiset of values `f x`, `x ∈ l`. -/
def mostCommonBy {α : Type} (f : α → String) (l : List α) : String × Nat :=
  mostCommonAux ((firstOccurrences (l.map f)).map
    (fun t => (t, (l.filter (fun x => f x = t)).length)))

/-- Sum of `f` over a list divided by its length (`total / len(l)`). -/
def listAvg {α : Type} (f : α → ℚ) (l : List α) : ℚ :=
  qdiv (l.foldl (fun acc x => qadd acc (f x)) 0) (l.length : ℚ)

/-- Fraction of elements satisfying `p` (`count / len(l)`). -/
def listRatio {α : Type} (p : α → Bool) (l : List α) : ℚ :=
  qdiv (((l.filter p).length : ℚ)) ((l.length : ℚ))

/-- The majority count never exceeds the list length. -/
theorem mostCommonBy_le_length {α : Type} (f : α → String) (l : List α) :
    (mostCommonBy f l).2 ≤ l.length := by
  rw [mostCommonBy, mostCommonAux]
  have : ∀ (counts : List (String × Nat)) (b : String × Nat),
      b.2 ≤ l.length → (∀ c ∈ counts, c.2 ≤ l.length) →
      (counts.foldl (fun best c => if c.2 > best.2 then c else best) b).2 ≤ l.length := by
    intro counts
    induction counts with
    | nil => intro b hb _; exact hb
    | cons c rest ih =>
      intro b hb hc
      simp only [List.foldl_cons]
      split
      · exact ih _ (hc c (List.mem_cons_self _ _)) (fun d hd => hc d (List.mem_cons_of_mem _ hd))
      · exact ih _ hb (fun d hd => hc d (List.mem_cons_of_mem _ hd))
  refine this _ _ (by simp) ?_
  intro c hc
  obtain ⟨t, _, rfl⟩ := List.mem_map.mp hc
  exact List.length_filter_le _ _

/-! ## The balanced analyzer (`src/balanced_vocab_analyzer.py`)

State of `BalancedEnhanced21kVocabAnalyzer`: `class_mapping`,
`discovered_classes` (a `defaultdict(list)` of discovery observations) and
`validation_stats`. -/

/-- A `discovery_info` dict of the balanced analyzer (`confidence` is the
percentage value). -/
structure BObs where
  expected_vocab : String
  confidence : ℚ
  rank : Nat
  confidence_gap : ℚ
deriving DecidableEq, Repr

/-- A `validation_stats` entry of the balanced analyzer. -/
structure BStats where
  vocab_term : String
  evidence_count : Nat
  avg_confidence : ℚ
  consistency_ratio : ℚ
  rank_1_ratio : ℚ
  high_confidence_ratio : ℚ
  quality_score : ℚ
deriving DecidableEq, Repr

structure BState where
  class_mapping : List (Nat × String)
  discovered_classes : List (Nat × List BObs)
  validation_stats : List (Nat × BStats)
deriving DecidableEq, Repr

def BState.init : BState := ⟨[], [], []⟩

/-- Body of the `for i, pred in enumerate(top_predictions)` loop of
`discover_class_mappings_balanced`: record a discovery for prediction `p` at
position `i` when `confidence_percent > 20`, the sixth prediction exists,
the gap to it exceeds `5`, and the class is not already mapped. -/
def discBStep (v : String) (sixth? : Option ℚ) (i : Nat) (p : Pred) (s : BState) : BState :=
  if confPercent p > 20 then
    match sixth? with
    | some sixth =>
      if qsub (confPercent p) sixth > 5 then
        if alistHas s.class_mapping p.class_idx then s
        else { s with discovered_classes :=
                 (alistPush s.discovered_classes p.class_idx
                   ⟨v, confPercent p, i + 1, qsub (confPercent p) sixth⟩) }
      else s
    | none => s
  else s

def discBGo (v : String) (sixth? : Option ℚ) : Nat → List Pred → BState → BState
  | _, [], s => s
  | i, p :: ps, s => discBGo v sixth? (i + 1) ps (discBStep v sixth? i p s)

/-- `discover_class_mappings_balanced(predictions, expected_vocab)`:
no-op when `expected_vocab` is falsy; otherwise scan the top 5 predictions,
with the gap measured against `predictions[5]` (`if len(predictions) > 5`). -/
def discoverBalanced (s : BState) (preds : List Pred) (expected : Option String) : BState :=
  match expected with
  | none => s
  | some v =>
    if v = "" then s
    else discBGo v ((preds.get? 5).map confPercent) 0 (preds.take 5) s

/-- `avg_confidence = total_confidence / len(discoveries)`. -/
def avgConfidenceB (l : List BObs) : ℚ := listAvg (fun o => o.confidence) l

/-- `most_common_vocab, occurrence_count = vocab_counts.most_common(1)[0]`. -/
def mostCommonB (l : List BObs) : String × Nat := mostCommonBy (fun o => o.expected_vocab) l

/-- `consistency_ratio = occurrence_count / len(discoveries)`. -/
def consistencyRatioB (l : List BObs) : ℚ := qdiv ((mostCommonB l).2 : ℚ) (l.length : ℚ)

/-- `rank_1_ratio = rank_1_count / len(discoveries)`. -/
def rank1RatioB (l : List BObs) : ℚ := listRatio (fun o => decide (o.rank = 1)) l

/-- `high_confidence_ratio`, with `high_confidence_count` counting
discoveries with `confidence > 30.0`. -/
def highConfRatioB (l : List BObs) : ℚ := listRatio (fun o => decide (o.confidence > 30)) l

/-- The balanced validation criteria of `build_class_mapping_balanced`
(`0.5 = 1/2`, `0.2 = 1/5`, `0.3 = 3/10` as exact rationals). -/
def balancedValidation (l : List BObs) : Prop :=
  avgConfidenceB l > 25 ∧ consistencyRatioB l > mkRat 1 2 ∧ (mostCommonB l).2 ≥ 2 ∧
    (rank1RatioB l > mkRat 1 5 ∨ highConfRatioB l > mkRat 3 10)

instance (l : List BObs) : Decidable (balancedValidation l) := by
  unfold balancedValidation
  infer_instance

/-- The `validation_stats` entry written for a validated class. -/
def bStatsOf (l : List BObs) : BStats :=
  ⟨(mostCommonB l).1, l.length, avgConfidenceB l, consistencyRatioB l,
    rank1RatioB l, highConfRatioB l,
    qmul (qmul (avgConfidenceB l) (consistencyRatioB l))
      (qadd (rank1RatioB l) (highConfRatioB l))⟩

/-- Loop body of `build_class_mapping_balanced` over one
`(class_idx, discoveries)` item, acting on the pair
`(new_mappings, validation_stats)`. -/
def buildBStep (acc : List (Nat × String) × List (Nat × BStats)) (e : Nat × List BObs) :
    List (Nat × String) × List (Nat × BStats) :=
  if e.2.length < 2 then acc
  else if balancedValidation e.2 then
    (alistSet acc.1 e.1 (pyLower (mostCommonB e.2).1), alistSet acc.2 e.1 (bStatsOf e.2))
  else acc

/-- `build_class_mapping_balanced()`: fold over `discovered_classes`
(insertion order), then `class_mapping.update(new_mappings)`.  Returns the
new state together with `new_mappings`. -/
def buildBalanced (s : BState) : BState × List (Nat × String) :=
  let r := s.discovered_classes.foldl buildBStep ([], s.validation_stats)
  ({ s with class_mapping := alistUpdate s.class_mapping r.1, validation_stats := r.2 }, r.1)

/-- One externally observable operation on the balanced analyzer's mapping
state: a call to `discover_class_mappings_balanced` or to
`build_class_mapping_balanced`. -/
inductive BOp where
  | discover (preds : List Pred) (expected : Option String)
  | rebuild
deriving DecidableEq, Repr

def bStepOp (s : BState) (op : BOp) : BState :=
  match op with
  | .discover ps v => discoverBalanced s ps v
  | .rebuild => (buildBalanced s).1

/-- A run of the balanced analyzer from its initial (empty) mapping state. -/
def bRun (ops : List BOp) : BState := ops.foldl bStepOp BState.init

/-! ## The hybrid analyzer (`src/scripts/hybrid_analyzer.py`) -/

/-- A `discovery_info` dict of the hybrid analyzer. -/
structure HObs where
  expected_vocab : String
  confidence : ℚ
  rank : Nat
  mapping_type : String
deriving DecidableEq, Repr

/-- A `validation_stats` entry of the hybrid analyzer.  The
`high_confidence_ratio` key is absent from the dict written by the immediate
fast-path, hence the `Option`. -/
structure HStats where
  vocab_term : String
  evidence_count : Nat
  avg_confidence : ℚ
  consistency_ratio : ℚ
  high_confidence_ratio : Option ℚ
  quality_score : ℚ
  mapping_type : String
deriving DecidableEq, Repr

structure HState where
  class_mapping : List (Nat × String)
  discovered_classes : List (Nat × List HObs)
  validation_stats : List (Nat × HStats)
deriving DecidableEq, Repr

def HState.init : HState := ⟨[], [], []⟩

/-- Body of the `for i, pred in enumerate(predictions[:3])` loop of
`discover_class_mappings_hybrid`: skip mapped classes, map immediately above
`70%`, otherwise record single / multiple evidence above `50%` / `30%`. -/
def discHStep (v : String) (i : Nat) (p : Pred) (s : HState) : HState :=
  if alistHas s.class_mapping p.class_idx then s
  else if confPercent p > 70 then
    { s with
      class_mapping := alistSet s.class_mapping p.class_idx (pyLower v),
      validation_stats := (alistSet s.validation_stats p.class_idx
        ⟨v, 1, confPercent p, 1, none, confPercent p, "immediate_high_confidence"⟩) }
  else if confPercent p > 50 then
    { s with discovered_classes := (alistPush s.discovered_classes p.class_idx
        ⟨v, confPercent p, i + 1, "single_evidence_validated"⟩) }
  else if confPercent p > 30 then
    { s with discovered_classes := (alistPush s.discovered_classes p.class_idx
        ⟨v, confPercent p, i + 1, "multiple_evidence_required"⟩) }
  else s

def discHGo (v : String) : Nat → List Pred → HState → HState
  | _, [], s => s
  | i, p :: ps, s => discHGo v (i + 1) ps (discHStep v i p s)

/-- `discover_class_mappings_hybrid(predictions, expected_vocab)`. -/
def discoverHybrid (s : HState) (preds : List Pred) (expected : Option String) : HState :=
  match expected with
  | none => s
  | some v => if v = "" then s else discHGo v 0 (preds.take 3) s

def avgConfidenceH (l : List HObs) : ℚ := listAvg (fun o => o.confidence) l

def mostCommonH (l : List HObs) : String × Nat := mostCommonBy (fun o => o.expected_vocab) l

def consistencyRatioH (l : List HObs) : ℚ := qdiv ((mostCommonH l).2 : ℚ) (l.length : ℚ)

/-- `high_confidence_ratio`, counting discoveries with `confidence > 50.0`. -/
def highConfRatioH (l : List HObs) : ℚ := listRatio (fun o => decide (o.confidence > 50)) l

/-- Hybrid validation, single-high-confidence branch:
`len(discoveries) == 1 and avg_confidence > 50.0`. -/
def hybridSinglePass (l : List HObs) : Prop := l.length = 1 ∧ avgConfidenceH l > 50

/-- Hybrid validation, multiple-evidence branch (`0.6 = 3/5`):
`avg_confidence > 35.0 and consistency_ratio > 0.6 and occurrence_count >= 2`. -/
def hybridMultiPass (l : List HObs) : Prop :=
  avgConfidenceH l > 35 ∧ consistencyRatioH l > mkRat 3 5 ∧ (mostCommonH l).2 ≥ 2

instance (l : List HObs) : Decidable (hybridSinglePass l) := by
  unfold hybridSinglePass; infer_instance

instance (l : List HObs) : Decidable (hybridMultiPass l) := by
  unfold hybridMultiPass; infer_instance

/-- The `validation_stats` entry written by `build_class_mapping_hybrid`
on acceptance (`quality_score = avg_confidence * consistency_ratio *
(1 + high_confidence_ratio)`). -/
def hStatsOf (l : List HObs) (mappingType : String) : HStats :=
  ⟨(mostCommonH l).1, l.length, avgConfidenceH l, consistencyRatioH l,
    some (highConfRatioH l),
    qmul (qmul (avgConfidenceH l) (consistencyRatioH l)) (qadd 1 (highConfRatioH l)),
    mappingType⟩

/-- Loop body of `build_class_mapping_hybrid` over one
`(class_idx, discoveries)` item: skip classes already present in
`class_mapping` (read once, before the update at the end of the call),
then apply the hybrid validation branches. -/
def buildHStep (origMapping : List (Nat × String))
    (acc : List (Nat × String) × List (Nat × HStats)) (e : Nat × List HObs) :
    List (Nat × String) × List (Nat × HStats) :=
  if alistHas origMapping e.1 then acc
  else if e.2.length = 0 then acc
  else if hybridSinglePass e.2 then
    (alistSet acc.1 e.1 (pyLower (mostCommonH e.2).1),
     alistSet acc.2 e.1 (hStatsOf e.2 "single_high_confidence"))
  else if 2 ≤ e.2.length then
    if hybridMultiPass e.2 then
      (alistSet acc.1 e.1 (pyLower (mostCommonH e.2).1),
       alistSet acc.2 e.1 (hStatsOf e.2 "multiple_evidence_validated"))
    else acc
  else acc

/-- `build_class_mapping_hybrid()`: fold over `discovered_classes`, then
`class_mapping.update(new_mappings)`; returns the new state and
`new_mappings`. -/
def buildHybrid (s : HState) : HState × List (Nat × String) :=
  let r := s.discovered_classes.foldl (buildHStep s.class_mapping) ([], s.validation_stats)
  ({ s with class_mapping := alistUpdate s.class_mapping r.1, validation_stats := r.2 }, r.1)

/-- A `vocab_matches` entry of `match_vocabulary_terms_hybrid` (the constant
`match_type: 'hybrid_mapping'` field and the embedded prediction dict carry
no extra information and are omitted; `similarity` is `pred['confidence']`). -/
structure HMatch where
  vocab_term : String
  similarity : ℚ
  quality_score : ℚ
  class_idx : Nat
  mapping_type : String
deriving DecidableEq, Repr

/-- The sort key `(-similarity, -quality_score)` of
`vocab_matches.sort(...)`, as a boolean `≤` for the stable sort. -/
def hMatchLe (a b : HMatch) : Bool :=
  decide (b.similarity < a.similarity ∨
    (a.similarity = b.similarity ∧ b.quality_score ≤ a.quality_score))

/-- `match_vocabulary_terms_hybrid(predictions)`: emit a match for each of the
top 10 predictions whose class is mapped, then stable-sort by
`(-similarity, -quality_score)`. -/
def matchHybrid (s : HState) (preds : List Pred) : List HMatch :=
  stableSort hMatchLe ((preds.take 10).filterMap (fun p =>
    match alistGet s.class_mapping p.class_idx with
    | none => none
    | some t => some ⟨t, p.confidence,
        ((alistGet s.validation_stats p.class_idx).map (fun st => st.quality_score)).getD 0,
        p.class_idx,
        ((alistGet s.validation_stats p.class_idx).map (fun st => st.mapping_type)).getD "unknown"⟩))

/-- One externally observable operation on the hybrid analyzer's mapping
state. -/
inductive HOp where
  | discover (preds : List Pred) (expected : Option String)
  | rebuild
deriving DecidableEq, Repr

def hStepOp (s : HState) (op : HOp) : HState :=
  match op with
  | .discover ps v => discoverHybrid s ps v
  | .rebuild => (buildHybrid s).1

/-- A run of the hybrid analyzer from its initial (empty) mapping state. -/
def hRun (ops : List HOp) : HState := ops.foldl hStepOp HState.init

/-! ## The 2×2 grid split and the hybrid per-image / batch drivers -/

/-- The four `image.crop` boxes of `analyze_image_hybrid` /
`run_balanced_test`, as `(left, upper, right, lower)` with integer division
(`width//2`, `height//2`). -/
def gridCells (w h : Nat) : List (String × (Nat × Nat × Nat × Nat)) :=
  [("top_left", (0, 0, w / 2, h / 2)),
   ("top_right", (w / 2, 0, w, h / 2)),
   ("bottom_left", (0, h / 2, w / 2, h)),
   ("bottom_right", (w / 2, h / 2, w, h))]

/-- Pixel `(x, y)` lies in crop box `(left, upper, right, lower)`
(half-open on the right/bottom, as PIL crops). -/
def inCropBox (b : Nat × Nat × Nat × Nat) (x y : Nat) : Bool :=
  decide (b.1 ≤ x ∧ x < b.2.2.1 ∧ b.2.1 ≤ y ∧ y < b.2.2.2)

/-- `expected_vocab = self.vocab_terms[vocab_index] if vocab_index <
len(self.vocab_terms) else None`, with `vocab_index = i - 4`.  Faithful for
the runs of the scripts, which start at image id 4 (`start_id=4`). -/
def expectedForId (vocab : List String) (i : Nat) : Option String :=
  if h : i - 4 < vocab.length then some (vocab.get ⟨i - 4, h⟩) else none

/-- The per-image record produced by `analyze_image_hybrid`, restricted to
the fields the verified properties are about.  `success` and `error` model
the `try/except` skeleton: exceptions can arise only from the external
image download / model call, which are inputs of this embedding, so the
embedded analysis always returns `success: True`, `error` absent — there is
no code path that skips an image for an out-of-range vocabulary index. -/
structure ImageResult where
  screenshot_id : Nat
  expected_vocab : Option String
  has_correct_detection : Bool
  has_any_detection : Bool
  success : Bool
  error : Option String
deriving DecidableEq, Repr

/-- The correct-detection check of one grid cell:
`expected_vocab and match['vocab_term'].lower() == expected_vocab.lower()`
for some match of the cell. -/
def cellCorrect (ms : List HMatch) (expected : Option String) : Bool :=
  match expected with
  | none => false
  | some v => if v = "" then false
      else ms.any (fun m => pyLower m.vocab_term = pyLower v)

/-- The keys of the `grid_cells` dict, in insertion order. -/
def gridPositions : List String := ["top_left", "top_right", "bottom_left", "bottom_right"]

/-- `analyze_image_hybrid`, with the external classifier supplied as a
function from (image id, grid position) to its ranked predictions: for each
of the four cells in dict order, discover mappings, match vocabulary, and
fold the two per-image flags. -/
def analyzeImageHybrid (clf : Nat → String → List Pred) (s : HState) (imgId : Nat)
    (expected : Option String) : HState × ImageResult :=
  let r := gridPositions.foldl
    (fun (acc : HState × Bool × Bool) pos =>
      let preds := clf imgId pos
      let s' := discoverHybrid acc.1 preds expected
      let ms := matchHybrid s' preds
      (s', acc.2.1 || !ms.isEmpty, acc.2.2 || cellCorrect ms expected))
    (s, false, false)
  (r.1, ⟨imgId, expected, r.2.2, r.2.1, true, none⟩)

/-- The `for i in range(start_id, end_id + 1)` loop of
`run_hybrid_analysis`, by remaining iteration count: analyze the image for
id `i`, append its result, rebuild the mapping after each image. -/
def runImagesHybrid (clf : Nat → String → List Pred) (vocab : List String) :
    Nat → Nat → HState → HState × List ImageResult
  | _, 0, s => (s, [])
  | i, n + 1, s =>
    let a := analyzeImageHybrid clf s i (expectedForId vocab i)
    let s₂ := (buildHybrid a.1).1
    let rest := runImagesHybrid clf vocab (i + 1) n s₂
    (rest.1, a.2 :: rest.2)

/-- `run_hybrid_analysis(start_id, end_id)` (the batch driver), returning the
final state (after the final `build_class_mapping_hybrid()`) and the
per-image results. -/
def runHybridAnalysis (clf : Nat → String → List Pred) (vocab : List String)
    (startId endId : Nat) : HState × List ImageResult :=
  let r := runImagesHybrid clf vocab startId (endId + 1 - startId) HState.init
  ((buildHybrid r.1).1, r.2)

/-! ## The string-label matcher (`src/scripts/python_efficientnet_classifier.py`)

`_find_vocab_matches` scores each prediction's literal class-name string
against every vocabulary term with a 4-tier cascade whose last tier is
`difflib.SequenceMatcher(None, a, b).ratio()`.  The `SequenceMatcher`
machinery below follows the stdlib algorithm with an empty junk set
(`None` and autojunk is inert for strings shorter than 200 characters, far
beyond every class name / vocabulary term of this repository); recursion is
by an amply sufficient fuel, which only these executable definitions use. -/

/-- The `j2len` chain loop of `SequenceMatcher.find_longest_match`
restricted to `a[alo:ahi]` × `b[blo:bhi]`: returns `(besti, bestj, bestsize)`
for the earliest longest matching block. -/
def flmInner (a b : List Char) (alo ahi blo bhi : Nat) : Nat × Nat × Nat :=
  (((List.range a.length).filter (fun i => decide (alo ≤ i ∧ i < ahi))).foldl
    (fun (st : List (Nat × Nat) × (Nat × Nat × Nat)) i =>
      let js := (List.range b.length).filter
        (fun j => decide (b.getD j ' ' = a.getD i ' ' ∧ blo ≤ j ∧ j < bhi))
      js.foldl
        (fun (acc : List (Nat × Nat) × (Nat × Nat × Nat)) j =>
          let k := (if j = 0 then 0 else (alistGet st.1 (j - 1)).getD 0) + 1
          let best := if k > acc.2.2.2 then (i + 1 - k, j + 1 - k, k) else acc.2
          (alistSet acc.1 j k, best))
        ([], st.2))
    ([], (alo, blo, 0))).2

/-- Backward extension of the best block over equal characters. -/
def extendLo (a b : List Char) (alo blo : Nat) :
    Nat → Nat → Nat → Nat → Nat × Nat × Nat
  | 0, besti, bestj, bestsize => (besti, bestj, bestsize)
  | fuel + 1, besti, bestj, bestsize =>
    if alo < besti ∧ blo < bestj ∧ a.getD (besti - 1) ' ' = b.getD (bestj - 1) ' ' then
      extendLo a b alo blo fuel (besti - 1) (bestj - 1) (bestsize + 1)
    else (besti, bestj, bestsize)

/-- Forward extension of the best block over equal characters. -/
def extendHi (a b : List Char) (ahi bhi : Nat) :
    Nat → Nat → Nat → Nat → Nat × Nat × Nat
  | 0, besti, bestj, bestsize => (besti, bestj, bestsize)
  | fuel + 1, besti, bestj, bestsize =>
    if besti + bestsize < ahi ∧ bestj + bestsize < bhi ∧
        a.getD (besti + bestsize) ' ' = b.getD (bestj + bestsize) ' ' then
      extendHi a b ahi bhi fuel besti bestj (bestsize + 1)
    else (besti, bestj, bestsize)

/-- `find_longest_match` (empty junk set: the junk extension loops are
no-ops and the non-junk extension loops are the two above). -/
def findLongestMatch (a b : List Char) (alo ahi blo bhi : Nat) : Nat × Nat × Nat :=
  let m := flmInner a b alo ahi blo bhi
  let m₁ := extendLo a b alo blo m.1 m.1 m.2.1 m.2.2
  extendHi a b ahi bhi (a.length + 1) m₁.1 m₁.2.1 m₁.2.2

/-- Total size of all matching blocks (the queue recursion of
`get_matching_blocks`, accumulating only the block sizes, which is all
`ratio()` consumes). -/
def matchingTotalGo (a b : List Char) : Nat → List (Nat × Nat × Nat × Nat) → Nat → Nat
  | 0, _, acc => acc
  | _ + 1, [], acc => acc
  | fuel + 1, q :: queue, acc =>
    let m := findLongestMatch a b q.1 q.2.1 q.2.2.1 q.2.2.2
    if 0 < m.2.2 then
      let left := if q.1 < m.1 ∧ q.2.2.1 < m.2.1 then [(q.1, m.1, q.2.2.1, m.2.1)] else []
      let right := if m.1 + m.2.2 < q.2.1 ∧ m.2.1 + m.2.2 < q.2.2.2 then
          [(m.1 + m.2.2, q.2.1, m.2.1 + m.2.2, q.2.2.2)] else []
      matchingTotalGo a b fuel (right ++ left ++ queue) (acc + m.2.2)
    else matchingTotalGo a b fuel queue acc

/-- `SequenceMatcher(None, s1, s2).ratio() = 2*M/T` (and `1.0` for two empty
strings, as in `_calculate_ratio`). -/
def sequenceRatio (s1 s2 : String) : ℚ :=
  let a := s1.data
  let b := s2.data
  if a.length + b.length = 0 then 1
  else qdiv ((2 * matchingTotalGo a b (3 * (a.length + b.length) + 1)
      [(0, a.length, 0, b.length)] 0 : Nat) : ℚ) ((a.length + b.length : Nat) : ℚ)

/-- `_similarity_score(text1, text2)`: the ratio of the lowercased strings. -/
def similarityScore (t1 t2 : String) : ℚ := sequenceRatio (pyLower t1) (pyLower t2)

/-- A prediction as consumed by `_find_vocab_matches`: here the class name
is a literal label string. -/
structure LPred where
  class_name : String
  confidence : ℚ
deriving DecidableEq, Repr

/-- A match dict produced by `_find_vocab_matches`. -/
structure LMatch where
  prediction : LPred
  vocab_term : String
  match_score : ℚ
  match_type : String
deriving DecidableEq, Repr

/-- The score of one `(class_name, vocab_term)` pair: the 4-tier cascade of
`_find_vocab_matches` (`class_name` is already lowercased by the caller;
the vocabulary term is lowercased here, as in the loop body).
`0.8 = 4/5`, `0.6 = 3/5`. -/
def tierScore (class_name vocab_term : String) : ℚ :=
  let vocab_lower := pyLower vocab_term
  if vocab_lower = class_name then 1
  else if isSubstr vocab_lower class_name || isSubstr class_name vocab_lower then mkRat 4 5
  else if (pyWords vocab_lower).any (fun w => (pyWords class_name).contains w) ||
      (pyWords class_name).any (fun w => (pyWords vocab_lower).contains w) then mkRat 3 5
  else similarityScore class_name vocab_lower

/-- The `match_type` classification of a best score. -/
def matchTypeOf (score : ℚ) : String :=
  if score = 1 then "exact" else if mkRat 4 5 ≤ score then "partial" else "similarity"

/-- Body of the inner `for vocab_term in self.vocab_list` loop: update
`(best_match, best_score)` only on `score > best_score and score >=
threshold`. -/
def bestStep (class_name : String) (θ : ℚ) (best : Option String × ℚ) (t : String) :
    Option String × ℚ :=
  if tierScore class_name t > best.2 ∧ tierScore class_name t ≥ θ then
    (some t, tierScore class_name t)
  else best

/-- The inner `for vocab_term in self.vocab_list` loop. -/
def bestLoop (class_name : String) (θ : ℚ) (vocab : List String) : Option String × ℚ :=
  vocab.foldl (bestStep class_name θ) (none, 0)

/-- The contribution of one prediction: its best match, if any (`if
best_match:` — `None` and the empty string are falsy). -/
def matchFor (vocab : List String) (θ : ℚ) (p : LPred) : Option LMatch :=
  let r := bestLoop (pyLower p.class_name) θ vocab
  match r.1 with
  | none => none
  | some t => if t = "" then none else some ⟨p, t, r.2, matchTypeOf r.2⟩

/-- `_find_vocab_matches(predictions, threshold)`: the outer loop, appending
each prediction's best match in prediction order; the function returns
`matches` with no sorting. -/
def findVocabMatches (preds : List LPred) (vocab : List String) (θ : ℚ) : List LMatch :=
  preds.foldl
    (fun acc p =>
      match (matchFor vocab θ p) with
      | none => acc
      | some m => acc ++ [m])
    []

/-! ## Lemmas: the balanced rebuild -/

theorem buildBalanced_nm (s : BState) :
    (buildBalanced s).2 =
      (s.discovered_classes.foldl buildBStep ([], s.validation_stats)).1 := rfl

theorem buildBalanced_stats (s : BState) :
    (buildBalanced s).1.validation_stats =
      (s.discovered_classes.foldl buildBStep ([], s.validation_stats)).2 := rfl

theorem buildBalanced_discovered (s : BState) :
    (buildBalanced s).1.discovered_classes = s.discovered_classes := rfl

theorem buildBalanced_mapping (s : BState) :
    (buildBalanced s).1.class_mapping = alistUpdate s.class_mapping (buildBalanced s).2 := rfl

/-- Passing balanced validation forces at least two recorded observations. -/
theorem balancedValidation_two_le_length {l : List BObs} (h : balancedValidation l) :
    2 ≤ l.length :=
  le_trans h.2.2.1 (mostCommonBy_le_length _ l)

/-- Folding `buildBStep` over entries whose keys all differ from `c` leaves
both accumulator components unchanged at `c`. -/
theorem buildB_fold_skip (ds : List (Nat × List BObs))
    (acc : List (Nat × String) × List (Nat × BStats)) (c : Nat)
    (h : ∀ p ∈ ds, p.1 ≠ c) :
    alistGet (ds.foldl buildBStep acc).1 c = alistGet acc.1 c ∧
    alistGet (ds.foldl buildBStep acc).2 c = alistGet acc.2 c := by
  induction ds generalizing acc with
  | nil => exact ⟨rfl, rfl⟩
  | cons e rest ih =>
    have he : e.1 ≠ c := h e (List.mem_cons_self _ _)
    have hr := ih (buildBStep acc e) (fun p hp => h p (List.mem_cons_of_mem _ hp))
    rw [List.foldl_cons]
    refine ⟨hr.1.trans ?_, hr.2.trans ?_⟩ <;>
      · unfold buildBStep
        split
        · rfl
        · split
          · simp [alistGet_set, he]
          · rfl

/-- Any binding of the `new_mappings` accumulator comes from a discovered
entry that passed the balanced validation. -/
theorem buildB_fold_mem (ds : List (Nat × List BObs))
    (acc : List (Nat × String) × List (Nat × BStats)) (c : Nat) (u : String)
    (h : alistGet (ds.foldl buildBStep acc).1 c = some u) :
    alistGet acc.1 c = some u ∨
      ∃ l, (c, l) ∈ ds ∧ balancedValidation l ∧ u = pyLower (mostCommonB l).1 := by
  induction ds generalizing acc with
  | nil => exact Or.inl h
  | cons e rest ih =>
    rw [List.foldl_cons] at h
    rcases ih (buildBStep acc e) h with h' | ⟨l, hmem, hv, hu⟩
    · unfold buildBStep at h'
      split at h'
      · exact Or.inl h'
      · split at h'
        · next hv =>
          rw [alistGet_set] at h'
          split at h'
          · next hec =>
            refine Or.inr ⟨e.2, ?_, hv, (Option.some.inj h').symm⟩
            have : e = (c, e.2) := by rw [← hec]
            exact this ▸ List.mem_cons_self _ _
          · exact Or.inl h'
        · exact Or.inl h'
    · exact Or.inr ⟨l, List.mem_cons_of_mem _ hmem, hv, hu⟩

/-- The effect of one `buildBStep` at its own key. -/
theorem buildBStep_at_self (acc : List (Nat × String) × List (Nat × BStats))
    (c : Nat) (l : List BObs) :
    alistGet (buildBStep acc (c, l)).1 c =
      (if 2 ≤ l.length ∧ balancedValidation l then some (pyLower (mostCommonB l).1)
       else alistGet acc.1 c) ∧
    alistGet (buildBStep acc (c, l)).2 c =
      (if 2 ≤ l.length ∧ balancedValidation l then some (bStatsOf l)
       else alistGet acc.2 c) := by
  unfold buildBStep
  by_cases hlen : (c, l).2.length < 2
  · have : ¬ (2 ≤ l.length ∧ balancedValidation l) := fun h => by
      simp only at hlen
      omega
    rw [if_pos hlen, if_neg this, if_neg this]
    exact ⟨rfl, rfl⟩
  · rw [if_neg hlen]
    by_cases hv : balancedValidation l
    · have h2 : 2 ≤ l.length ∧ balancedValidation l := ⟨by simp only at hlen; omega, hv⟩
      rw [if_pos (by exact hv), if_pos h2, if_pos h2]
      simp [alistGet_set]
    · have h2 : ¬ (2 ≤ l.length ∧ balancedValidation l) := fun h => hv h.2
      rw [if_neg (by exact hv), if_neg h2, if_neg h2]
      exact ⟨rfl, rfl⟩

/-- With duplicate-free keys in `discovered_classes`, the rebuild's effect at
the class of a given evidence list: accepted into `new_mappings` (with the
lowercased majority term, and the full stats entry) exactly when the
balanced validation passes. -/
theorem buildB_fold_at (s : BState) (c : Nat) (l : List BObs)
    (hnd : (s.discovered_classes.map Prod.fst).Nodup)
    (hl : alistGet s.discovered_classes c = some l) :
    alistGet (buildBalanced s).2 c =
      (if balancedValidation l then some (pyLower (mostCommonB l).1) else none) ∧
    alistGet (buildBalanced s).1.validation_stats c =
      (if balancedValidation l then some (bStatsOf l)
       else alistGet s.validation_stats c) := by
  obtain ⟨ds1, ds2, hds, hni⟩ := alistGet_eq_some_split hl
  have hni2 : ∀ p ∈ ds2, p.1 ≠ c := by
    intro p hp
    rw [hds] at hnd
    simp only [List.map_append, List.map_cons, List.nodup_append] at hnd
    have := hnd.2.1
    rw [List.nodup_cons] at this
    intro hc
    exact this.1 (hc ▸ List.mem_map_of_mem Prod.fst hp)
  have hni1 : ∀ p ∈ ds1, p.1 ≠ c := hni
  rw [buildBalanced_nm, buildBalanced_stats, hds, List.foldl_append, List.foldl_cons]
  have h1 := buildB_fold_skip ds1 ([], s.validation_stats) c hni1
  have h2 := buildB_fold_skip ds2
    (buildBStep (ds1.foldl buildBStep ([], s.validation_stats)) (c, l)) c hni2
  have hstep := buildBStep_at_self (ds1.foldl buildBStep ([], s.validation_stats)) c l
  rw [h2.1, h2.2, hstep.1, hstep.2, h1.1, h1.2]
  by_cases hv : balancedValidation l
  · have h2 : 2 ≤ l.length := balancedValidation_two_le_length hv
    simp [hv, h2, alistGet]
  · simp [hv, alistGet]

/-! ## Lemmas: the balanced discovery loop -/

theorem discBStep_mapping (v : String) (sixth? : Option ℚ) (i : Nat) (p : Pred) (st : BState) :
    (discBStep v sixth? i p st).class_mapping = st.class_mapping := by
  unfold discBStep
  repeat' split
  all_goals rfl

theorem discBStep_stats (v : String) (sixth? : Option ℚ) (i : Nat) (p : Pred) (st : BState) :
    (discBStep v sixth? i p st).validation_stats = st.validation_stats := by
  unfold discBStep
  repeat' split
  all_goals rfl

theorem discBGo_mapping (v : String) (sixth? : Option ℚ) (ps : List Pred) (i : Nat) (st : BState) :
    (discBGo v sixth? i ps st).class_mapping = st.class_mapping := by
  induction ps generalizing i st with
  | nil => rfl
  | cons p rest ih => rw [discBGo, ih, discBStep_mapping]

theorem discBGo_stats (v : String) (sixth? : Option ℚ) (ps : List Pred) (i : Nat) (st : BState) :
    (discBGo v sixth? i ps st).validation_stats = st.validation_stats := by
  induction ps generalizing i st with
  | nil => rfl
  | cons p rest ih => rw [discBGo, ih, discBStep_stats]

/-- One balanced discovery step leaves the evidence list of class `c`
unchanged when the prediction is for another class, or when `c` is already
mapped. -/
theorem discBStep_discovered_frozen (v : String) (sixth? : Option ℚ) (i : Nat) (p : Pred)
    (st : BState) (c : Nat)
    (h : p.class_idx ≠ c ∨ alistHas st.class_mapping c = true) :
    alistGet (discBStep v sixth? i p st).discovered_classes c =
      alistGet st.discovered_classes c := by
  unfold discBStep
  split
  · split
    · split
      · split
        · rfl
        · next hmap =>
          simp only [alistGet_push]
          rw [if_neg]
          rcases h with h | h
          · exact h
          · intro hc
            exact hmap (hc ▸ h)
      · rfl
    · rfl
  · rfl

/-- Folding the balanced discovery over predictions not naming class `c`
(or with `c` already mapped) leaves the evidence list of `c` unchanged. -/
theorem discBGo_discovered_frozen (v : String) (sixth? : Option ℚ) (ps : List Pred)
    (i : Nat) (st : BState) (c : Nat)
    (h : ∀ q ∈ ps, q.class_idx ≠ c ∨ alistHas st.class_mapping c = true) :
    alistGet (discBGo v sixth? i ps st).discovered_classes c =
      alistGet st.discovered_classes c := by
  induction ps generalizing i st with
  | nil => rfl
  | cons p rest ih =>
    rw [discBGo]
    have hmap : (discBStep v sixth? i p st).class_mapping = st.class_mapping :=
      discBStep_mapping ..
    rw [ih _ _ (fun q hq => by
      rcases h q (List.mem_cons_of_mem _ hq) with h' | h'
      · exact Or.inl h'
      · exact Or.inr (by rw [alistHas, hmap]; exact h'))]
    exact discBStep_discovered_frozen v sixth? i p st c (h p (List.mem_cons_self _ _))

theorem discBGo_append (v : String) (sixth? : Option ℚ) (l₁ l₂ : List Pred) (i : Nat)
    (st : BState) :
    discBGo v sixth? i (l₁ ++ l₂) st =
      discBGo v sixth? (i + l₁.length) l₂ (discBGo v sixth? i l₁ st) := by
  induction l₁ generalizing i st with
  | nil => simp [discBGo]
  | cons p rest ih =>
    rw [List.cons_append, discBGo, ih, discBGo]
    simp only [List.length_cons]
    rw [show i + (rest.length + 1) = i + 1 + rest.length by omega]

/-- Claim C6: evidence recording in `discover_class_mappings_balanced` is
gated by strict inequalities — for a prediction `p` among the top 5 (at
position `pre.length`, its class unique there), an observation is appended
exactly when the class is not already mapped AND `confidence_percent`
strictly exceeds the `20.0` discovery threshold AND a sixth prediction
exists and the confidence gap to it strictly exceeds `5.0`; in particular a
confidence exactly equal to the threshold is not recorded, and one above it
(with sufficient gap) is recorded. -/
theorem balanced_discovery_gating (s : BState) (ps : List Pred) (v : String)
    (pre post : List Pred) (p : Pred) (hv : v ≠ "")
    (hsplit : ps.take 5 = pre ++ p :: post)
    (hpre : ∀ q ∈ pre, q.class_idx ≠ p.class_idx)
    (hpost : ∀ q ∈ post, q.class_idx ≠ p.class_idx) :
    alistGet (discoverBalanced s ps (some v)).discovered_classes p.class_idx =
      (match ps.get? 5 with
       | none => alistGet s.discovered_classes p.class_idx
       | some p6 =>
         if alistHas s.class_mapping p.class_idx = false ∧ confPercent p > 20 ∧
             qsub (confPercent p) (confPercent p6) > 5 then
           some ((alistGet s.discovered_classes p.class_idx).getD [] ++
             [⟨v, confPercent p, pre.length + 1, qsub (confPercent p) (confPercent p6)⟩])
         else alistGet s.discovered_classes p.class_idx) := by
  have hred : discoverBalanced s ps (some v) =
      discBGo v ((ps.get? 5).map confPercent) 0 (ps.take 5) s := by
    simp [discoverBalanced, hv]
  rw [hred, hsplit, discBGo_append, discBGo]
  have hst1m : (discBGo v ((ps.get? 5).map confPercent) 0 pre s).class_mapping =
      s.class_mapping := discBGo_mapping ..
  have hst1d : alistGet (discBGo v ((ps.get? 5).map confPercent) 0 pre s).discovered_classes
      p.class_idx = alistGet s.discovered_classes p.class_idx :=
    discBGo_discovered_frozen _ _ _ _ _ _ (fun q hq => Or.inl (hpre q hq))
  rw [discBGo_discovered_frozen _ _ post _ _ _ (fun q hq => Or.inl (hpost q hq))]
  rcases hp6 : ps.get? 5 with _ | p6 <;> rw [hp6] at hst1m hst1d
  · simp only [Option.map_none'] at hst1m hst1d ⊢
    simp only [discBStep]
    split
    · exact hst1d
    · exact hst1d
  · simp only [Option.map_some'] at hst1m hst1d ⊢
    simp only [discBStep]
    by_cases hconf : confPercent p > 20
    · rw [if_pos hconf]
      by_cases hgap : qsub (confPercent p) (confPercent p6) > 5
      · rw [if_pos hgap]
        by_cases hmapped : alistHas s.class_mapping p.class_idx
        · rw [if_pos (by rw [hst1m]; exact hmapped)]
          rw [if_neg (fun h => by simp [hmapped] at h), hst1d]
        · have hfalse : alistHas s.class_mapping p.class_idx = false := by
            simp at hmapped
            exact hmapped
          rw [if_neg (by rw [hst1m]; exact hmapped)]
          simp only [alistGet_push, if_pos rfl]
          rw [hst1d]
          simp only [Nat.zero_add]
          have hcond : alistHas s.class_mapping p.class_idx = false ∧
              confPercent p > 20 ∧ qsub (confPercent p) (confPercent p6) > 5 :=
            ⟨hfalse, hconf, hgap⟩
          simp [hcond]
      · rw [if_neg hgap, if_neg (fun h => hgap h.2.2), hst1d]
    · rw [if_neg hconf, if_neg (fun h => hconf h.2.1), hst1d]

/-- Witness for C6: with six predictions whose sixth has confidence `0`, a
top prediction at exactly the `20.0` threshold is not recorded, while at
`21.0` (gap `21 > 5`) an observation is appended. -/
theorem balanced_discovery_gating_witness :
    alistGet (discoverBalanced BState.init
        [⟨9, mkRat 21 100⟩, ⟨1, 0⟩, ⟨2, 0⟩, ⟨3, 0⟩, ⟨4, 0⟩, ⟨5, 0⟩]
        (some "fork")).discovered_classes 9 =
      some [⟨"fork", 21, 1, 21⟩] ∧
    alistGet (discoverBalanced BState.init
        [⟨9, mkRat 20 100⟩, ⟨1, 0⟩, ⟨2, 0⟩, ⟨3, 0⟩, ⟨4, 0⟩, ⟨5, 0⟩]
        (some "fork")).discovered_classes 9 = none := by
  constructor
  · exact (balanced_discovery_gating BState.init
      [⟨9, mkRat 21 100⟩, ⟨1, 0⟩, ⟨2, 0⟩, ⟨3, 0⟩, ⟨4, 0⟩, ⟨5, 0⟩] "fork"
      [] [⟨1, 0⟩, ⟨2, 0⟩, ⟨3, 0⟩, ⟨4, 0⟩] ⟨9, mkRat 21 100⟩
      (by decide) (by decide) (by decide) (by decide)).trans (by decide)
  · exact (balanced_discovery_gating BState.init
      [⟨9, mkRat 20 100⟩, ⟨1, 0⟩, ⟨2, 0⟩, ⟨3, 0⟩, ⟨4, 0⟩, ⟨5, 0⟩] "fork"
      [] [⟨1, 0⟩, ⟨2, 0⟩, ⟨3, 0⟩, ⟨4, 0⟩] ⟨9, mkRat 20 100⟩
      (by decide) (by decide) (by decide) (by decide)).trans (by decide)

/-- Claim C1: `build_class_mapping_balanced` accepts a `class_id →
vocab_term` mapping (value: the lowercased majority expected term) if and
only if, over the observations recorded for that class:
`avg_confidence > 25.0` and `consistency_ratio > 0.5` and
`occurrence_count ≥ 2` and (`rank_1_ratio > 0.2` or
`high_confidence_ratio > 0.3`). -/
theorem balanced_rebuild_acceptance (s : BState) (c : Nat) (l : List BObs)
    (hnd : (s.discovered_classes.map Prod.fst).Nodup)
    (hl : alistGet s.discovered_classes c = some l) :
    alistGet (buildBalanced s).2 c =
      (if avgConfidenceB l > 25 ∧ consistencyRatioB l > mkRat 1 2 ∧
          (mostCommonB l).2 ≥ 2 ∧
          (rank1RatioB l > mkRat 1 5 ∨ highConfRatioB l > mkRat 3 10)
       then some (pyLower (mostCommonB l).1) else none) :=
  (buildB_fold_at s c l hnd hl).1

/-- Witness for C1: two rank-1 observations for class 42 at `30%` with the
same expected term pass every balanced criterion and are accepted with the
lowercased majority term. -/
theorem balanced_rebuild_acceptance_witness :
    alistGet (buildBalanced
        ⟨[], [(42, [⟨"Acorn", 30, 1, 30⟩, ⟨"Acorn", 30, 1, 30⟩])], []⟩).2 42 =
      some "acorn" :=
  (balanced_rebuild_acceptance _ 42 [⟨"Acorn", 30, 1, 30⟩, ⟨"Acorn", 30, 1, 30⟩]
    (by decide) (by decide)).trans (by decide)

/-! ## Lemmas: the hybrid discovery loop -/

/-- One hybrid discovery step never disturbs class `c` when the prediction
is for a different class `≠ c`: the mapping, evidence and stats of `c` are
untouched. -/
theorem discHStep_other (v : String) (i : Nat) (p : Pred) (st : HState) (c : Nat)
    (h : p.class_idx ≠ c) :
    alistGet (discHStep v i p st).class_mapping c = alistGet st.class_mapping c ∧
    alistGet (discHStep v i p st).discovered_classes c =
      alistGet st.discovered_classes c ∧
    alistGet (discHStep v i p st).validation_stats c = alistGet st.validation_stats c := by
  unfold discHStep
  split
  · exact ⟨rfl, rfl, rfl⟩
  · split
    · exact ⟨by simp [alistGet_set, h], rfl, by simp [alistGet_set, h]⟩
    · split
      · exact ⟨rfl, by simp [alistGet_push, h], rfl⟩
      · split
        · exact ⟨rfl, by simp [alistGet_push, h], rfl⟩
        · exact ⟨rfl, rfl, rfl⟩

/-- One hybrid discovery step leaves an already-mapped class `c` fully
frozen: its mapping value, evidence and stats are unchanged. -/
theorem discHStep_mapped (v : String) (i : Nat) (p : Pred) (st : HState) (c : Nat)
    (h : alistHas st.class_mapping c = true) :
    alistGet (discHStep v i p st).class_mapping c = alistGet st.class_mapping c ∧
    alistGet (discHStep v i p st).discovered_classes c =
      alistGet st.discovered_classes c ∧
    alistGet (discHStep v i p st).validation_stats c = alistGet st.validation_stats c := by
  by_cases hpc : p.class_idx = c
  · subst hpc
    unfold discHStep
    rw [if_pos h]
    exact ⟨rfl, rfl, rfl⟩
  · exact discHStep_other v i p st c hpc

/-- Folding the hybrid discovery keeps an already-mapped class fully frozen. -/
theorem discHGo_mapped (v : String) (ps : List Pred) (i : Nat) (st : HState) (c : Nat)
    (h : alistHas st.class_mapping c = true) :
    alistGet (discHGo v i ps st).class_mapping c = alistGet st.class_mapping c ∧
    alistGet (discHGo v i ps st).discovered_classes c =
      alistGet st.discovered_classes c ∧
    alistGet (discHGo v i ps st).validation_stats c = alistGet st.validation_stats c := by
  induction ps generalizing i st with
  | nil => exact ⟨rfl, rfl, rfl⟩
  | cons p rest ih =>
    rw [discHGo]
    have hstep := discHStep_mapped v i p st c h
    have hmap : alistHas (discHStep v i p st).class_mapping c = true := by
      rw [alistHas, hstep.1]
      exact h
    have hr := ih (i + 1) (discHStep v i p st) hmap
    exact ⟨hr.1.trans hstep.1, hr.2.1.trans hstep.2.1, hr.2.2.trans hstep.2.2⟩

/-- Folding the hybrid discovery over predictions not naming class `c`
leaves `c` untouched. -/
theorem discHGo_other (v : String) (ps : List Pred) (i : Nat) (st : HState) (c : Nat)
    (h : ∀ q ∈ ps, q.class_idx ≠ c) :
    alistGet (discHGo v i ps st).class_mapping c = alistGet st.class_mapping c ∧
    alistGet (discHGo v i ps st).discovered_classes c =
      alistGet st.discovered_classes c ∧
    alistGet (discHGo v i ps st).validation_stats c = alistGet st.validation_stats c := by
  induction ps generalizing i st with
  | nil => exact ⟨rfl, rfl, rfl⟩
  | cons p rest ih =>
    rw [discHGo]
    have hstep := discHStep_other v i p st c (h p (List.mem_cons_self _ _))
    have hr := ih (i + 1) (discHStep v i p st) (fun q hq => h q (List.mem_cons_of_mem _ hq))
    exact ⟨hr.1.trans hstep.1, hr.2.1.trans hstep.2.1, hr.2.2.trans hstep.2.2⟩

theorem discHGo_append (v : String) (l₁ l₂ : List Pred) (i : Nat) (st : HState) :
    discHGo v i (l₁ ++ l₂) st = discHGo v (i + l₁.length) l₂ (discHGo v i l₁ st) := by
  induction l₁ generalizing i st with
  | nil => simp [discHGo]
  | cons p rest ih =>
    rw [List.cons_append, discHGo, ih, discHGo]
    simp only [List.length_cons]
    rw [show i + (rest.length + 1) = i + 1 + rest.length by omega]

/-- Claim C2: in the hybrid policy, a single observation with confidence
strictly above `70%` for a not-yet-mapped class among the top 3 predictions
produces an immediate mapping entry (the lowercased expected term) whose
stats have `quality_score` equal to that confidence, `evidence_count` `1`
and `consistency_ratio` `1.0`, while the evidence store for that class is
left untouched (the consistency check and evidence accumulation are
skipped). -/
theorem hybrid_fast_path_immediate (s : HState) (ps : List Pred) (v : String)
    (pre post : List Pred) (p : Pred) (hv : v ≠ "")
    (hsplit : ps.take 3 = pre ++ p :: post)
    (hpre : ∀ q ∈ pre, q.class_idx ≠ p.class_idx)
    (hunmapped : alistGet s.class_mapping p.class_idx = none)
    (hconf : confPercent p > 70) :
    alistGet (discoverHybrid s ps (some v)).class_mapping p.class_idx =
      some (pyLower v) ∧
    alistGet (discoverHybrid s ps (some v)).validation_stats p.class_idx =
      some ⟨v, 1, confPercent p, 1, none, confPercent p, "immediate_high_confidence"⟩ ∧
    alistGet (discoverHybrid s ps (some v)).discovered_classes p.class_idx =
      alistGet s.discovered_classes p.class_idx := by
  have hred : discoverHybrid s ps (some v) = discHGo v 0 (ps.take 3) s := by
    simp [discoverHybrid, hv]
  rw [hred, hsplit, discHGo_append, discHGo]
  have h1 := discHGo_other v pre 0 s p.class_idx (fun q hq => hpre q hq)
  have hstep : discHStep v (0 + pre.length) p (discHGo v 0 pre s) =
      { discHGo v 0 pre s with
        class_mapping := alistSet (discHGo v 0 pre s).class_mapping p.class_idx (pyLower v),
        validation_stats := (alistSet (discHGo v 0 pre s).validation_stats p.class_idx
          ⟨v, 1, confPercent p, 1, none, confPercent p, "immediate_high_confidence"⟩) } := by
    unfold discHStep
    rw [if_neg (by rw [alistHas, h1.1, hunmapped]; simp), if_pos hconf]
  rw [hstep]
  have h2 := discHGo_mapped v post (0 + pre.length + 1)
    { discHGo v 0 pre s with
      class_mapping := alistSet (discHGo v 0 pre s).class_mapping p.class_idx (pyLower v),
      validation_stats := (alistSet (discHGo v 0 pre s).validation_stats p.class_idx
        ⟨v, 1, confPercent p, 1, none, confPercent p, "immediate_high_confidence"⟩) }
    p.class_idx (by simp [alistHas, alistGet_set])
  refine ⟨h2.1.trans ?_, h2.2.2.trans ?_, h2.2.1.trans h1.2.1⟩
  · show alistGet (alistSet (discHGo v 0 pre s).class_mapping p.class_idx (pyLower v))
      p.class_idx = some (pyLower v)
    rw [alistGet_set, if_pos rfl]
  · show alistGet (alistSet (discHGo v 0 pre s).validation_stats p.class_idx
        ⟨v, 1, confPercent p, 1, none, confPercent p, "immediate_high_confidence"⟩)
      p.class_idx = some ⟨v, 1, confPercent p, 1, none, confPercent p,
        "immediate_high_confidence"⟩
    rw [alistGet_set, if_pos rfl]

/-- Witness for C2: a single prediction for class 42 at `71%` maps it
immediately to the lowercased expected term with `quality_score = 71`,
`evidence_count = 1`, `consistency_ratio = 1`, and records no evidence. -/
theorem hybrid_fast_path_immediate_witness :
    alistGet (discoverHybrid HState.init [⟨42, mkRat 71 100⟩]
        (some "Acorn")).class_mapping 42 = some "acorn" ∧
    alistGet (discoverHybrid HState.init [⟨42, mkRat 71 100⟩]
        (some "Acorn")).validation_stats 42 =
      some ⟨"Acorn", 1, 71, 1, none, 71, "immediate_high_confidence"⟩ ∧
    alistGet (discoverHybrid HState.init [⟨42, mkRat 71 100⟩]
        (some "Acorn")).discovered_classes 42 = none := by
  have h := hybrid_fast_path_immediate HState.init [⟨42, mkRat 71 100⟩] "Acorn"
    [] [] ⟨42, mkRat 71 100⟩ (by decide) (by decide) (by decide) (by decide) (by decide)
  exact ⟨h.1.trans (by decide), h.2.1.trans (by decide), h.2.2.trans (by decide)⟩

/-! ## The quadrant partition -/

/-- Claim C7: for an image of width `w` and height `h`, the four crop boxes
`(0,0,w//2,h//2)`, `(w//2,0,w,h//2)`, `(0,h//2,w//2,h)` and
`(w//2,h//2,w,h)` exactly tile `[0,w) × [0,h)`: every pixel lies in exactly
one quadrant (integer division, odd remainder to the bottom/right cells). -/
theorem quadrant_partition (w h x y : Nat) (hx : x < w) (hy : y < h) :
    ((gridCells w h).countP (fun cell => inCropBox cell.2 x y)) = 1 := by
  rcases Nat.lt_or_ge x (w / 2) with hxl | hxr <;> rcases Nat.lt_or_ge y (h / 2) with hyl | hyr
  · have c1 : inCropBox (0, 0, w / 2, h / 2) x y = true := by
      simp [inCropBox]; omega
    have c2 : inCropBox (w / 2, 0, w, h / 2) x y = false := by
      simp [inCropBox]; omega
    have c3 : inCropBox (0, h / 2, w / 2, h) x y = false := by
      simp [inCropBox]; omega
    have c4 : inCropBox (w / 2, h / 2, w, h) x y = false := by
      simp [inCropBox]; omega
    simp [gridCells, List.countP_cons, c1, c2, c3, c4]
  · have c1 : inCropBox (0, 0, w / 2, h / 2) x y = false := by
      simp [inCropBox]; omega
    have c2 : inCropBox (w / 2, 0, w, h / 2) x y = false := by
      simp [inCropBox]; omega
    have c3 : inCropBox (0, h / 2, w / 2, h) x y = true := by
      simp [inCropBox]; omega
    have c4 : inCropBox (w / 2, h / 2, w, h) x y = false := by
      simp [inCropBox]; omega
    simp [gridCells, List.countP_cons, c1, c2, c3, c4]
  · have c1 : inCropBox (0, 0, w / 2, h / 2) x y = false := by
      simp [inCropBox]; omega
    have c2 : inCropBox (w / 2, 0, w, h / 2) x y = true := by
      simp [inCropBox]; omega
    have c3 : inCropBox (0, h / 2, w / 2, h) x y = false := by
      simp [inCropBox]; omega
    have c4 : inCropBox (w / 2, h / 2, w, h) x y = false := by
      simp [inCropBox]; omega
    simp [gridCells, List.countP_cons, c1, c2, c3, c4]
  · have c1 : inCropBox (0, 0, w / 2, h / 2) x y = false := by
      simp [inCropBox]; omega
    have c2 : inCropBox (w / 2, 0, w, h / 2) x y = false := by
      simp [inCropBox]; omega
    have c3 : inCropBox (0, h / 2, w / 2, h) x y = false := by
      simp [inCropBox]; omega
    have c4 : inCropBox (w / 2, h / 2, w, h) x y = true := by
      simp [inCropBox]; omega
    simp [gridCells, List.countP_cons, c1, c2, c3, c4]

/-- Witness for C7: in a `5 × 3` image the bottom-right remainder pixel
`(4, 2)` lies in exactly one quadrant. -/
theorem quadrant_partition_witness :
    ((gridCells 5 3).countP (fun cell => inCropBox cell.2 4 2)) = 1 :=
  quadrant_partition 5 3 4 2 (by decide) (by decide)

/-! ## Lemmas: the hybrid rebuild -/

theorem buildHybrid_nm (s : HState) :
    (buildHybrid s).2 =
      (s.discovered_classes.foldl (buildHStep s.class_mapping)
        ([], s.validation_stats)).1 := rfl

theorem buildHybrid_stats (s : HState) :
    (buildHybrid s).1.validation_stats =
      (s.discovered_classes.foldl (buildHStep s.class_mapping)
        ([], s.validation_stats)).2 := rfl

theorem buildHybrid_discovered (s : HState) :
    (buildHybrid s).1.discovered_classes = s.discovered_classes := rfl

theorem buildHybrid_mapping (s : HState) :
    (buildHybrid s).1.class_mapping = alistUpdate s.class_mapping (buildHybrid s).2 := rfl

/-- The disjunction of the two accepting branches of
`build_class_mapping_hybrid`. -/
def hybridPass (l : List HObs) : Prop :=
  hybridSinglePass l ∨ (2 ≤ l.length ∧ hybridMultiPass l)

instance (l : List HObs) : Decidable (hybridPass l) := by
  unfold hybridPass; infer_instance

/-- The `mapping_type` recorded by the accepting branch. -/
def hMapTypeOf (l : List HObs) : String :=
  if hybridSinglePass l then "single_high_confidence" else "multiple_evidence_validated"

/-- `buildHStep` in closed form: accept exactly the unmapped classes whose
evidence passes one of the two hybrid branches. -/
theorem buildHStep_eq (m' : List (Nat × String))
    (acc : List (Nat × String) × List (Nat × HStats)) (e : Nat × List HObs) :
    buildHStep m' acc e =
      (if alistHas m' e.1 = false ∧ hybridPass e.2 then
        (alistSet acc.1 e.1 (pyLower (mostCommonH e.2).1),
         alistSet acc.2 e.1 (hStatsOf e.2 (hMapTypeOf e.2)))
       else acc) := by
  unfold buildHStep hMapTypeOf
  by_cases h1 : alistHas m' e.1
  · rw [if_pos h1, if_neg (fun h => by simp [h1] at h)]
  · have h1' : alistHas m' e.1 = false := by simp at h1; exact h1
    rw [if_neg h1]
    by_cases h0 : e.2.length = 0
    · rw [if_pos h0]
      have hn : ¬ hybridPass e.2 := by
        rintro (hs | hm)
        · have := hs.1
          omega
        · have := hm.1
          omega
      rw [if_neg (fun h => hn h.2)]
    · rw [if_neg h0]
      by_cases hs : hybridSinglePass e.2
      · rw [if_pos hs, if_pos ⟨h1', Or.inl hs⟩, if_pos hs]
      · rw [if_neg hs]
        by_cases h2 : 2 ≤ e.2.length
        · rw [if_pos h2]
          by_cases hm : hybridMultiPass e.2
          · rw [if_pos hm, if_pos ⟨h1', Or.inr ⟨h2, hm⟩⟩, if_neg hs]
          · rw [if_neg hm, if_neg]
            rintro ⟨-, hs' | hm'⟩
            · exact hs hs'
            · exact hm hm'.2
        · rw [if_neg h2, if_neg]
          rintro ⟨-, hs' | hm'⟩
          · exact hs hs'
          · exact h2 hm'.1

/-- Folding `buildHStep` over entries whose keys all differ from `c` leaves
both accumulator components unchanged at `c`. -/
theorem buildH_fold_skip (m' : List (Nat × String)) (ds : List (Nat × List HObs))
    (acc : List (Nat × String) × List (Nat × HStats)) (c : Nat)
    (h : ∀ p ∈ ds, p.1 ≠ c) :
    alistGet (ds.foldl (buildHStep m') acc).1 c = alistGet acc.1 c ∧
    alistGet (ds.foldl (buildHStep m') acc).2 c = alistGet acc.2 c := by
  induction ds generalizing acc with
  | nil => exact ⟨rfl, rfl⟩
  | cons e rest ih =>
    have he : e.1 ≠ c := h e (List.mem_cons_self _ _)
    have hr := ih (buildHStep m' acc e) (fun p hp => h p (List.mem_cons_of_mem _ hp))
    rw [List.foldl_cons]
    refine ⟨hr.1.trans ?_, hr.2.trans ?_⟩ <;>
      · rw [buildHStep_eq]
        split
        · simp [alistGet_set, he]
        · rfl

/-- Membership in `alistSet`. -/
theorem mem_alistSet {α : Type} {l : List (Nat × α)} {k : Nat} {v : α} {c : Nat} {u : α}
    (h : (c, u) ∈ alistSet l k v) : (c, u) ∈ l ∨ (c = k ∧ u = v) := by
  induction l with
  | nil =>
    simp [alistSet] at h
    exact Or.inr ⟨h.1, h.2⟩
  | cons p rest ih =>
    unfold alistSet at h
    split at h
    · rcases List.mem_cons.mp h with heq | hmem
      · cases heq
        exact Or.inr ⟨rfl, rfl⟩
      · exact Or.inl (List.mem_cons_of_mem _ hmem)
    · rcases List.mem_cons.mp h with heq | hmem
      · exact Or.inl (heq ▸ List.mem_cons_self _ _)
      · rcases ih hmem with h' | h'
        · exact Or.inl (List.mem_cons_of_mem _ h')
        · exact Or.inr h'

/-- Any binding of the hybrid `new_mappings` accumulator comes from a
discovered entry for a class unmapped before the call that passed one of
the hybrid branches. -/
theorem buildH_fold_mem (m' : List (Nat × String)) (ds : List (Nat × List HObs))
    (acc : List (Nat × String) × List (Nat × HStats)) (c : Nat) (u : String)
    (h : (c, u) ∈ (ds.foldl (buildHStep m') acc).1) :
    (c, u) ∈ acc.1 ∨
      ∃ l, (c, l) ∈ ds ∧ alistHas m' c = false ∧ hybridPass l ∧
        u = pyLower (mostCommonH l).1 := by
  induction ds generalizing acc with
  | nil => exact Or.inl h
  | cons e rest ih =>
    rw [List.foldl_cons] at h
    rcases ih (buildHStep m' acc e) h with h' | ⟨l, hmem, hm, hp, hu⟩
    · rw [buildHStep_eq] at h'
      split at h'
      · next hcond =>
        rcases mem_alistSet h' with h'' | ⟨rfl, rfl⟩
        · exact Or.inl h''
        · refine Or.inr ⟨e.2, ?_, hcond.1, hcond.2, rfl⟩
          exact (show e = (e.1, e.2) from rfl) ▸ List.mem_cons_self _ _
      · exact Or.inl h'
    · exact Or.inr ⟨l, List.mem_cons_of_mem _ hmem, hm, hp, hu⟩

/-- The first-lookup of a key with duplicate-free keys, from membership. -/
theorem alistGet_of_mem_nodup {α : Type} {l : List (Nat × α)} {c : Nat} {v : α}
    (hnd : (l.map Prod.fst).Nodup) (hmem : (c, v) ∈ l) : alistGet l c = some v := by
  induction l with
  | nil => simp at hmem
  | cons p rest ih =>
    simp only [List.map_cons, List.nodup_cons] at hnd
    rcases List.mem_cons.mp hmem with rfl | hmem'
    · rw [alistGet, if_pos rfl]
    · have hne : p.1 ≠ c := by
        intro hc
        exact hnd.1 (hc ▸ List.mem_map_of_mem Prod.fst hmem')
      rw [alistGet, if_neg hne]
      exact ih hnd.2 hmem'

/-- With duplicate-free keys, the hybrid rebuild's effect at the class of a
given evidence list: accepted (with the lowercased majority term and the
full stats entry) exactly when the class is unmapped and the evidence passes
a hybrid branch. -/
theorem buildH_fold_at (s : HState) (c : Nat) (l : List HObs)
    (hnd : (s.discovered_classes.map Prod.fst).Nodup)
    (hl : alistGet s.discovered_classes c = some l) :
    alistGet (buildHybrid s).2 c =
      (if alistHas s.class_mapping c = false ∧ hybridPass l then
        some (pyLower (mostCommonH l).1) else none) ∧
    alistGet (buildHybrid s).1.validation_stats c =
      (if alistHas s.class_mapping c = false ∧ hybridPass l then
        some (hStatsOf l (hMapTypeOf l)) else alistGet s.validation_stats c) := by
  obtain ⟨ds1, ds2, hds, hni⟩ := alistGet_eq_some_split hl
  have hni2 : ∀ p ∈ ds2, p.1 ≠ c := by
    intro p hp
    rw [hds] at hnd
    simp only [List.map_append, List.map_cons, List.nodup_append] at hnd
    have := hnd.2.1
    rw [List.nodup_cons] at this
    intro hc
    exact this.1 (hc ▸ List.mem_map_of_mem Prod.fst hp)
  rw [buildHybrid_nm, buildHybrid_stats, hds, List.foldl_append, List.foldl_cons]
  have h1 := buildH_fold_skip s.class_mapping ds1 ([], s.validation_stats) c hni
  have h2 := buildH_fold_skip s.class_mapping ds2
    (buildHStep s.class_mapping (ds1.foldl (buildHStep s.class_mapping)
      ([], s.validation_stats)) (c, l)) c hni2
  rw [h2.1, h2.2, buildHStep_eq]
  by_cases hcond : alistHas s.class_mapping (c, l).1 = false ∧ hybridPass (c, l).2
  · rw [if_pos hcond, if_pos hcond, if_pos hcond]
    simp [alistGet_set]
  · rw [if_neg hcond, if_neg hcond, if_neg hcond, h1.1, h1.2]
    exact ⟨rfl, rfl⟩

theorem alistHas_set {α : Type} (l : List (Nat × α)) (k : Nat) (v : α) (c : Nat) :
    alistHas (alistSet l k v) c = if k = c then true else alistHas l c := by
  rw [alistHas, alistGet_set]
  split
  · rfl
  · rfl

theorem alistHas_iff_mem {α : Type} (l : List (Nat × α)) (c : Nat) :
    alistHas l c = true ↔ ∃ v, (c, v) ∈ l := by
  constructor
  · intro h
    rw [alistHas, Option.isSome_iff_exists] at h
    obtain ⟨v, hv⟩ := h
    exact ⟨v, alistGet_mem hv⟩
  · rintro ⟨v, hv⟩
    induction l with
    | nil => simp at hv
    | cons p rest ih =>
      rcases List.mem_cons.mp hv with rfl | hmem
      · rw [alistHas, alistGet, if_pos rfl]
        rfl
      · rw [alistHas, alistGet]
        split
        · rfl
        · exact ih hmem

theorem alistHas_reverse {α : Type} (l : List (Nat × α)) (c : Nat) :
    alistHas l.reverse c = alistHas l c := by
  by_cases h : alistHas l c
  · rw [h]
    obtain ⟨v, hv⟩ := (alistHas_iff_mem l c).mp h
    exact (alistHas_iff_mem l.reverse c).mpr ⟨v, List.mem_reverse.mpr hv⟩
  · simp only [Bool.not_eq_true] at h
    rw [h]
    by_cases h' : alistHas l.reverse c
    · obtain ⟨v, hv⟩ := (alistHas_iff_mem l.reverse c).mp h'
      have : alistHas l c = true :=
        (alistHas_iff_mem l c).mpr ⟨v, List.mem_reverse.mp hv⟩
      rw [this] at h
      cases h
    · simp only [Bool.not_eq_true] at h'
      rw [h']

/-- Keys never disappear from the hybrid `new_mappings` accumulator. -/
theorem buildH_fold_has_mono (m' : List (Nat × String)) (ds : List (Nat × List HObs))
    (acc : List (Nat × String) × List (Nat × HStats)) (c : Nat)
    (h : alistHas acc.1 c = true) :
    alistHas (ds.foldl (buildHStep m') acc).1 c = true := by
  induction ds generalizing acc with
  | nil => exact h
  | cons e rest ih =>
    rw [List.foldl_cons]
    refine ih (buildHStep m' acc e) ?_
    rw [buildHStep_eq]
    split
    · show alistHas (alistSet acc.1 e.1 _) c = true
      rw [alistHas_set]
      split
      · rfl
      · exact h
    · exact h

/-- A discovered, unmapped, passing class ends up in the hybrid
`new_mappings`. -/
theorem buildH_fold_has (m' : List (Nat × String)) (ds : List (Nat × List HObs))
    (acc : List (Nat × String) × List (Nat × HStats)) (c : Nat) (l : List HObs)
    (hmem : (c, l) ∈ ds) (hm : alistHas m' c = false) (hp : hybridPass l) :
    alistHas (ds.foldl (buildHStep m') acc).1 c = true := by
  obtain ⟨ds1, ds2, hds⟩ := List.append_of_mem hmem
  subst hds
  rw [List.foldl_append, List.foldl_cons]
  refine buildH_fold_has_mono m' ds2 _ c ?_
  rw [buildHStep_eq, if_pos ⟨by rw [hm], hp⟩]
  show alistHas (alistSet _ c _) c = true
  rw [alistHas_set, if_pos rfl]

/-- If every discovered entry is already mapped or fails validation, the
hybrid rebuild emits nothing new. -/
theorem buildH_fold_nm_keep (m' : List (Nat × String)) (ds : List (Nat × List HObs))
    (nm : List (Nat × String)) (st : List (Nat × HStats))
    (h : ∀ e ∈ ds, alistHas m' e.1 = true ∨ ¬ hybridPass e.2) :
    (ds.foldl (buildHStep m') (nm, st)).1 = nm := by
  induction ds generalizing nm st with
  | nil => rfl
  | cons e rest ih =>
    rw [List.foldl_cons, buildHStep_eq]
    rw [if_neg ?_]
    · exact ih nm st (fun e' he' => h e' (List.mem_cons_of_mem _ he'))
    · rintro ⟨h1, h2⟩
      rcases h e (List.mem_cons_self _ _) with h' | h'
      · rw [h'] at h1
        cases h1
      · exact h' h2

/-- The `new_mappings` component of the balanced rebuild fold, on its own:
it never reads the stats accumulator. -/
def bNmStep (a : List (Nat × String)) (e : Nat × List BObs) : List (Nat × String) :=
  if e.2.length < 2 then a
  else if balancedValidation e.2 then alistSet a e.1 (pyLower (mostCommonB e.2).1) else a

theorem buildBStep_fst (acc : List (Nat × String) × List (Nat × BStats))
    (e : Nat × List BObs) : (buildBStep acc e).1 = bNmStep acc.1 e := by
  unfold buildBStep bNmStep
  repeat' split
  all_goals rfl

theorem buildB_fold_fst (ds : List (Nat × List BObs)) (a : List (Nat × String))
    (st : List (Nat × BStats)) :
    (ds.foldl buildBStep (a, st)).1 = ds.foldl bNmStep a := by
  induction ds generalizing a st with
  | nil => rfl
  | cons e rest ih =>
    rw [List.foldl_cons, List.foldl_cons]
    have heta : buildBStep (a, st) e = ((buildBStep (a, st) e).1, (buildBStep (a, st) e).2) :=
      rfl
    rw [heta, ih, buildBStep_fst]

/-- Counterexample to C4 (the claim as stated): in the balanced policy a
second `build_class_mapping_balanced()` call with no new observations
re-validates the already-consumed evidence and returns the same non-empty
`new_mappings` again (`discovered_classes` is never pruned and the rebuild
does not skip already-mapped classes). -/
theorem rebuild_idempotent_counterexample :
    (buildBalanced (bRun
      [.discover [⟨42, mkRat 30 100⟩, ⟨1, 0⟩, ⟨2, 0⟩, ⟨3, 0⟩, ⟨4, 0⟩, ⟨5, 0⟩] (some "acorn"),
       .discover [⟨42, mkRat 30 100⟩, ⟨1, 0⟩, ⟨2, 0⟩, ⟨3, 0⟩, ⟨4, 0⟩, ⟨5, 0⟩] (some "acorn"),
       .rebuild])).2 = [(42, "acorn")] ∧
    [(42, "acorn")] ≠ ([] : List (Nat × String)) := by
  decide

/-- Claim C4 as amended: rebuild is idempotent in the hybrid policy — a
second `build_class_mapping_hybrid()` with no new observations returns an
empty `new_mappings` (already-mapped classes are skipped and unvalidated
evidence fails again) — while in the balanced policy the second call
returns the same `new_mappings` again, so only the mapping *table* is
unchanged (the update re-writes identical bindings). -/
theorem rebuild_idempotent_amended :
    (∀ s : HState, (buildHybrid (buildHybrid s).1).2 = []) ∧
    (∀ (s : BState) (c : Nat),
      alistGet (buildBalanced (buildBalanced s).1).1.class_mapping c =
        alistGet (buildBalanced s).1.class_mapping c) := by
  constructor
  · intro s
    rw [buildHybrid_nm]
    apply buildH_fold_nm_keep
    intro e he
    by_cases hm : alistHas s.class_mapping e.1
    · left
      rw [buildHybrid_mapping, alistHas_update, hm]
      rfl
    · by_cases hp : hybridPass e.2
      · left
        have hm' : alistHas s.class_mapping e.1 = false := by
          simp at hm
          exact hm
        have hnm : alistHas (buildHybrid s).2 e.1 = true := by
          rw [buildHybrid_nm]
          refine buildH_fold_has s.class_mapping s.discovered_classes _ e.1 e.2 ?_ hm' hp
          exact (show e = (e.1, e.2) from rfl) ▸ he
        rw [buildHybrid_mapping, alistHas_update, alistHas_reverse, hnm]
        simp
      · right
        exact hp
  · intro s c
    have hnm : (buildBalanced (buildBalanced s).1).2 = (buildBalanced s).2 := by
      rw [buildBalanced_nm, buildBalanced_nm, buildBalanced_discovered,
        buildB_fold_fst, buildB_fold_fst]
    rw [buildBalanced_mapping (buildBalanced s).1, hnm, buildBalanced_mapping s]
    rcases h : alistGet (buildBalanced s).2.reverse c with _ | u
    · rw [alistGet_update, h, alistGet_update, h]
      simp
    · rw [alistGet_update, h, alistGet_update, h]
      simp

/-- Stated from the claim's wording (C5): the rank-1 ratio of a hybrid
evidence list.  The hybrid rebuild never computes this quantity; it exists
only to state the claimed quality formula. -/
def rank1RatioH (l : List HObs) : ℚ := listRatio (fun o => decide (o.rank = 1)) l

/-- Stated from the claim's wording (C5): the claimed quality formula
`avg_confidence × consistency_ratio × (rank1_ratio + high_confidence_ratio)`
over a hybrid evidence list. -/
def claimQualityH (l : List HObs) : ℚ :=
  qmul (qmul (avgConfidenceH l) (consistencyRatioH l))
    (qadd (rank1RatioH l) (highConfRatioH l))

/-- Counterexample to C5 (the claim as stated): two rank-2 observations at
`60%` for class 7 are accepted by the hybrid evidence path with
`quality_score = 60 × 1 × (1 + 1) = 120`, while the claimed formula
`avg × consistency × (rank1_ratio + high_confidence_ratio)` gives
`60 × 1 × (0 + 1) = 60`. -/
theorem evidence_quality_formula_counterexample :
    ((alistGet (buildHybrid ⟨[], [(7, [⟨"bamboo", 60, 2, "single_evidence_validated"⟩,
          ⟨"bamboo", 60, 2, "single_evidence_validated"⟩])], []⟩).1.validation_stats 7).map
        (fun st => st.quality_score)) = some 120 ∧
    claimQualityH [⟨"bamboo", 60, 2, "single_evidence_validated"⟩,
        ⟨"bamboo", 60, 2, "single_evidence_validated"⟩] = 60 ∧
    (120 : ℚ) ≠ 60 := by
  decide

/-- Claim C5 as amended: for a class accepted by evidence-based validation,
the balanced policy writes `quality_score = avg_confidence ×
consistency_ratio × (rank1_ratio + high_confidence_ratio)`, while the
hybrid policy writes `quality_score = avg_confidence × consistency_ratio ×
(1 + high_confidence_ratio)`; accepted observations are not removed from
the evidence store by either rebuild — instead the hybrid rebuild skips
already-mapped classes on later calls (emitting nothing for them). -/
theorem evidence_quality_formula :
    (∀ (s : BState) (c : Nat) (l : List BObs),
      (s.discovered_classes.map Prod.fst).Nodup →
      alistGet s.discovered_classes c = some l →
      balancedValidation l →
      alistGet (buildBalanced s).1.validation_stats c = some (bStatsOf l) ∧
      (bStatsOf l).quality_score =
        avgConfidenceB l * consistencyRatioB l * (rank1RatioB l + highConfRatioB l)) ∧
    (∀ (s : HState) (c : Nat) (l : List HObs),
      (s.discovered_classes.map Prod.fst).Nodup →
      alistGet s.discovered_classes c = some l →
      alistHas s.class_mapping c = false →
      hybridPass l →
      alistGet (buildHybrid s).1.validation_stats c = some (hStatsOf l (hMapTypeOf l)) ∧
      (hStatsOf l (hMapTypeOf l)).quality_score =
        avgConfidenceH l * consistencyRatioH l * (1 + highConfRatioH l)) ∧
    (∀ (s : HState) (c : Nat), alistHas s.class_mapping c = true →
      alistGet (buildHybrid s).2 c = none) ∧
    (∀ s : HState, (buildHybrid s).1.discovered_classes = s.discovered_classes) ∧
    (∀ s : BState, (buildBalanced s).1.discovered_classes = s.discovered_classes) := by
  refine ⟨?_, ?_, ?_, fun s => rfl, fun s => rfl⟩
  · intro s c l hnd hl hv
    refine ⟨?_, ?_⟩
    · rw [(buildB_fold_at s c l hnd hl).2, if_pos hv]
    · show qmul (qmul (avgConfidenceB l) (consistencyRatioB l))
        (qadd (rank1RatioB l) (highConfRatioB l)) = _
      rw [qmul_eq_mul, qmul_eq_mul, qadd_eq_add]
  · intro s c l hnd hl hm hp
    refine ⟨?_, ?_⟩
    · rw [(buildH_fold_at s c l hnd hl).2, if_pos ⟨hm, hp⟩]
    · show qmul (qmul (avgConfidenceH l) (consistencyRatioH l))
        (qadd 1 (highConfRatioH l)) = _
      rw [qmul_eq_mul, qmul_eq_mul, qadd_eq_add]
  · intro s c hm
    rcases h : alistGet (buildHybrid s).2 c with _ | u
    · rfl
    · exfalso
      have hmem := alistGet_mem h
      rw [buildHybrid_nm] at hmem
      rcases buildH_fold_mem _ _ _ _ _ hmem with h' | ⟨l, _, hm', _, _⟩
      · simp at h'
      · rw [hm] at hm'
        cases hm'

/-- Witness for the amended C5: concrete instances of the balanced and
hybrid quality formulas. -/
theorem evidence_quality_formula_witness :
    ((alistGet (buildBalanced ⟨[], [(42, [⟨"Acorn", 30, 1, 30⟩,
          ⟨"Acorn", 30, 1, 30⟩])], []⟩).1.validation_stats 42).map
        (fun st => st.quality_score)) = some 30 ∧
    alistGet (buildHybrid ⟨[(5, "cork")], [(5, [⟨"cork", 60, 1,
        "single_evidence_validated"⟩])], []⟩).2 5 = none := by
  constructor
  · have h := evidence_quality_formula.1 ⟨[], [(42, [⟨"Acorn", 30, 1, 30⟩,
      ⟨"Acorn", 30, 1, 30⟩])], []⟩ 42 [⟨"Acorn", 30, 1, 30⟩, ⟨"Acorn", 30, 1, 30⟩]
      (by decide) (by decide) (by decide)
    rw [h.1]
    decide
  · exact evidence_quality_formula.2.2.1 ⟨[(5, "cork")], [(5, [⟨"cork", 60, 1,
      "single_evidence_validated"⟩])], []⟩ 5 (by decide)

/-! ## Lemmas: monotonicity of the mapping table -/

theorem alistPush_keys_subset {α : Type} {l : List (Nat × List α)} {k : Nat} {x : α}
    {q : Nat} (h : q ∈ (alistPush l k x).map Prod.fst) :
    q ∈ l.map Prod.fst ∨ q = k := by
  induction l with
  | nil =>
    simp [alistPush] at h
    exact Or.inr h
  | cons p rest ih =>
    unfold alistPush at h
    split at h
    · simp only [List.map_cons] at h ⊢
      exact Or.inl h
    · simp only [List.map_cons] at h ⊢
      rcases List.mem_cons.mp h with rfl | h'
      · exact Or.inl (List.mem_cons_self _ _)
      · rcases ih h' with h'' | h''
        · exact Or.inl (List.mem_cons_of_mem _ h'')
        · exact Or.inr h''

theorem alistPush_keys_nodup {α : Type} {l : List (Nat × List α)} {k : Nat} {x : α}
    (hnd : (l.map Prod.fst).Nodup) : ((alistPush l k x).map Prod.fst).Nodup := by
  induction l with
  | nil => simp [alistPush]
  | cons p rest ih =>
    simp only [List.map_cons, List.nodup_cons] at hnd
    unfold alistPush
    split
    · simp only [List.map_cons, List.nodup_cons]
      exact hnd
    · next hne =>
      simp only [List.map_cons, List.nodup_cons]
      refine ⟨?_, ih hnd.2⟩
      intro hmem
      rcases alistPush_keys_subset hmem with h' | h'
      · exact hnd.1 h'
      · exact hne (h' ▸ rfl)

theorem discBStep_discovered_nodup (v : String) (sixth? : Option ℚ) (i : Nat) (p : Pred)
    (st : BState) (hnd : (st.discovered_classes.map Prod.fst).Nodup) :
    ((discBStep v sixth? i p st).discovered_classes.map Prod.fst).Nodup := by
  unfold discBStep
  repeat' split
  all_goals first
    | exact hnd
    | exact alistPush_keys_nodup hnd

theorem discBGo_discovered_nodup (v : String) (sixth? : Option ℚ) (ps : List Pred)
    (i : Nat) (st : BState) (hnd : (st.discovered_classes.map Prod.fst).Nodup) :
    ((discBGo v sixth? i ps st).discovered_classes.map Prod.fst).Nodup := by
  induction ps generalizing i st with
  | nil => exact hnd
  | cons p rest ih =>
    rw [discBGo]
    exact ih _ _ (discBStep_discovered_nodup v sixth? i p st hnd)

theorem discoverBalanced_mapping (s : BState) (ps : List Pred) (exp : Option String) :
    (discoverBalanced s ps exp).class_mapping = s.class_mapping := by
  cases exp with
  | none => rfl
  | some v =>
    by_cases hv : v = ""
    · simp [discoverBalanced, hv]
    · simp only [discoverBalanced, if_neg hv]
      exact discBGo_mapping ..

/-- Membership form of `buildB_fold_mem`. -/
theorem buildB_fold_mem' (ds : List (Nat × List BObs))
    (acc : List (Nat × String) × List (Nat × BStats)) (c : Nat) (u : String)
    (h : (c, u) ∈ (ds.foldl buildBStep acc).1) :
    (c, u) ∈ acc.1 ∨
      ∃ l, (c, l) ∈ ds ∧ balancedValidation l ∧ u = pyLower (mostCommonB l).1 := by
  induction ds generalizing acc with
  | nil => exact Or.inl h
  | cons e rest ih =>
    rw [List.foldl_cons] at h
    rcases ih (buildBStep acc e) h with h' | ⟨l, hmem, hv, hu⟩
    · rw [buildBStep_fst] at h'
      unfold bNmStep at h'
      split at h'
      · exact Or.inl h'
      · split at h'
        · next hv =>
          rcases mem_alistSet h' with h'' | ⟨rfl, rfl⟩
          · exact Or.inl h''
          · refine Or.inr ⟨e.2, ?_, hv, rfl⟩
            exact (show e = (e.1, e.2) from rfl) ▸ List.mem_cons_self _ _
        · exact Or.inl h'
    · exact Or.inr ⟨l, List.mem_cons_of_mem _ hmem, hv, hu⟩

/-- The reachability invariant of the balanced analyzer: `discovered_classes`
has duplicate-free keys, and every mapping binding is the lowercased
majority term of its (validated) evidence list. -/
def BInv (s : BState) : Prop :=
  (s.discovered_classes.map Prod.fst).Nodup ∧
  ∀ c t, alistGet s.class_mapping c = some t →
    ∃ l, alistGet s.discovered_classes c = some l ∧ balancedValidation l ∧
      t = pyLower (mostCommonB l).1

theorem BInv_init : BInv BState.init := by
  refine ⟨List.nodup_nil, ?_⟩
  intro c t h
  simp [BState.init, alistGet] at h

theorem BInv_discover (s : BState) (ps : List Pred) (exp : Option String)
    (h : BInv s) : BInv (discoverBalanced s ps exp) := by
  cases exp with
  | none => exact h
  | some v =>
    by_cases hv0 : v = ""
    · simp only [discoverBalanced, if_pos hv0]
      exact h
    · simp only [discoverBalanced, if_neg hv0]
      refine ⟨discBGo_discovered_nodup _ _ _ _ _ h.1, ?_⟩
      intro c t hct
      rw [discBGo_mapping] at hct
      obtain ⟨l, hl, hv, ht⟩ := h.2 c t hct
      refine ⟨l, ?_, hv, ht⟩
      rw [discBGo_discovered_frozen _ _ _ _ _ _
        (fun q _ => Or.inr (by rw [alistHas, hct]; rfl))]
      exact hl

theorem BInv_rebuild (s : BState) (h : BInv s) : BInv (buildBalanced s).1 := by
  refine ⟨by rw [buildBalanced_discovered]; exact h.1, ?_⟩
  intro c t hct
  rw [buildBalanced_mapping, alistGet_update] at hct
  rcases hrev : alistGet (buildBalanced s).2.reverse c with _ | u
  · rw [hrev] at hct
    simp only [Option.map_none', Option.getD_none] at hct
    obtain ⟨l, hl, hv, ht⟩ := h.2 c t hct
    exact ⟨l, by rw [buildBalanced_discovered]; exact hl, hv, ht⟩
  · rw [hrev] at hct
    simp only [Option.map_some', Option.getD_some] at hct
    have hut : u = t := Option.some.inj hct
    have hmem : (c, u) ∈ (buildBalanced s).2 :=
      List.mem_reverse.mp (alistGet_mem hrev)
    rw [buildBalanced_nm] at hmem
    rcases buildB_fold_mem' _ _ _ _ hmem with h' | ⟨l, hmeml, hv, hu⟩
    · simp at h'
    · refine ⟨l, ?_, hv, by rw [← hut, hu]⟩
      rw [buildBalanced_discovered]
      exact alistGet_of_mem_nodup h.1 hmeml

theorem BInv_step (s : BState) (op : BOp) (h : BInv s) : BInv (bStepOp s op) := by
  cases op with
  | discover ps v => exact BInv_discover s ps v h
  | rebuild => exact BInv_rebuild s h

theorem bStepOp_mono (s : BState) (op : BOp) (c : Nat) (t : String)
    (hInv : BInv s) (h : alistGet s.class_mapping c = some t) :
    alistGet (bStepOp s op).class_mapping c = some t := by
  cases op with
  | discover ps v => rw [bStepOp, discoverBalanced_mapping]; exact h
  | rebuild =>
    show alistGet (buildBalanced s).1.class_mapping c = some t
    rw [buildBalanced_mapping, alistGet_update]
    rcases hrev : alistGet (buildBalanced s).2.reverse c with _ | u
    · simp only [Option.map_none', Option.getD_none]
      exact h
    · simp only [Option.map_some', Option.getD_some]
      have hmem : (c, u) ∈ (buildBalanced s).2 :=
        List.mem_reverse.mp (alistGet_mem hrev)
      rw [buildBalanced_nm] at hmem
      rcases buildB_fold_mem' _ _ _ _ hmem with h' | ⟨l, hmeml, hv, hu⟩
      · simp at h'
      · obtain ⟨l₀, hl₀, _, ht⟩ := hInv.2 c t h
        have hll : l = l₀ := alistGet_unique hInv.1 hl₀ hmeml
        rw [hu, hll, ← ht]

theorem BInv_run (ops : List BOp) : BInv (bRun ops) := by
  have : ∀ (l : List BOp) (s : BState), BInv s → BInv (l.foldl bStepOp s) := by
    intro l
    induction l with
    | nil => exact fun s h => h
    | cons op rest ih => exact fun s h => ih (bStepOp s op) (BInv_step s op h)
  exact this ops BState.init BInv_init

theorem discoverHybrid_mono (s : HState) (ps : List Pred) (exp : Option String)
    (c : Nat) (t : String) (h : alistGet s.class_mapping c = some t) :
    alistGet (discoverHybrid s ps exp).class_mapping c = some t := by
  cases exp with
  | none => exact h
  | some v =>
    by_cases hv : v = ""
    · simp only [discoverHybrid, if_pos hv]
      exact h
    · simp only [discoverHybrid, if_neg hv]
      rw [(discHGo_mapped v (ps.take 3) 0 s c (by rw [alistHas, h]; rfl)).1]
      exact h

theorem buildHybrid_mono (s : HState) (c : Nat) (t : String)
    (h : alistGet s.class_mapping c = some t) :
    alistGet (buildHybrid s).1.class_mapping c = some t := by
  rw [buildHybrid_mapping, alistGet_update]
  rcases hrev : alistGet (buildHybrid s).2.reverse c with _ | u
  · simp only [Option.map_none', Option.getD_none]
    exact h
  · exfalso
    have hmem : (c, u) ∈ (buildHybrid s).2 :=
      List.mem_reverse.mp (alistGet_mem hrev)
    rw [buildHybrid_nm] at hmem
    rcases buildH_fold_mem _ _ _ _ _ hmem with h' | ⟨l, _, hm', _, _⟩
    · simp at h'
    · rw [alistHas, h] at hm'
      cases hm'

/-- Claim C3: for every (non-location-scoped) run, once a class id is bound
in the mapping table it is never removed or reassigned by any later
discovery or rebuild call — in the balanced and in the hybrid analyzer. -/
theorem mapping_monotonic :
    (∀ (ops extra : List BOp) (c : Nat) (t : String),
      alistGet (bRun ops).class_mapping c = some t →
      alistGet (bRun (ops ++ extra)).class_mapping c = some t) ∧
    (∀ (ops extra : List HOp) (c : Nat) (t : String),
      alistGet (hRun ops).class_mapping c = some t →
      alistGet (hRun (ops ++ extra)).class_mapping c = some t) := by
  constructor
  · intro ops extra c t h
    rw [bRun, List.foldl_append]
    have : ∀ (l : List BOp) (s : BState), BInv s →
        alistGet s.class_mapping c = some t →
        alistGet (l.foldl bStepOp s).class_mapping c = some t := by
      intro l
      induction l with
      | nil => exact fun s _ h' => h'
      | cons op rest ih =>
        exact fun s hInv h' =>
          ih (bStepOp s op) (BInv_step s op hInv) (bStepOp_mono s op c t hInv h')
    exact this extra (bRun ops) (BInv_run ops) h
  · intro ops extra c t h
    rw [hRun, List.foldl_append]
    have : ∀ (l : List HOp) (s : HState),
        alistGet s.class_mapping c = some t →
        alistGet (l.foldl hStepOp s).class_mapping c = some t := by
      intro l
      induction l with
      | nil => exact fun s h' => h'
      | cons op rest ih =>
        intro s h'
        refine ih (hStepOp s op) ?_
        cases op with
        | discover ps v => exact discoverHybrid_mono s ps v c t h'
        | rebuild => exact buildHybrid_mono s c t h'
    exact this extra (hRun ops) h

/-- Witness for C3: a mapping created by a balanced run (class 42 →
"acorn") survives further rebuild and discovery operations; likewise for a
hybrid fast-path mapping. -/
theorem mapping_monotonic_witness :
    alistGet (bRun
      ([.discover [⟨42, mkRat 30 100⟩, ⟨1, 0⟩, ⟨2, 0⟩, ⟨3, 0⟩, ⟨4, 0⟩, ⟨5, 0⟩] (some "acorn"),
        .discover [⟨42, mkRat 30 100⟩, ⟨1, 0⟩, ⟨2, 0⟩, ⟨3, 0⟩, ⟨4, 0⟩, ⟨5, 0⟩] (some "acorn"),
        .rebuild] ++
       [.discover [⟨42, mkRat 90 100⟩, ⟨1, 0⟩, ⟨2, 0⟩, ⟨3, 0⟩, ⟨4, 0⟩, ⟨5, 0⟩] (some "zebu"),
        .rebuild])).class_mapping 42 = some "acorn" ∧
    alistGet (hRun
      ([.discover [⟨42, mkRat 71 100⟩] (some "Acorn")] ++
       [.discover [⟨42, mkRat 90 100⟩] (some "zebu"), .rebuild])).class_mapping 42 =
      some "acorn" := by
  constructor
  · exact mapping_monotonic.1
      [.discover [⟨42, mkRat 30 100⟩, ⟨1, 0⟩, ⟨2, 0⟩, ⟨3, 0⟩, ⟨4, 0⟩, ⟨5, 0⟩] (some "acorn"),
       .discover [⟨42, mkRat 30 100⟩, ⟨1, 0⟩, ⟨2, 0⟩, ⟨3, 0⟩, ⟨4, 0⟩, ⟨5, 0⟩] (some "acorn"),
       .rebuild]
      [.discover [⟨42, mkRat 90 100⟩, ⟨1, 0⟩, ⟨2, 0⟩, ⟨3, 0⟩, ⟨4, 0⟩, ⟨5, 0⟩] (some "zebu"),
       .rebuild] 42 "acorn" (by decide)
  · exact mapping_monotonic.2
      [.discover [⟨42, mkRat 71 100⟩] (some "Acorn")]
      [.discover [⟨42, mkRat 90 100⟩] (some "zebu"), .rebuild] 42 "acorn" (by decide)

/-! ## Lemmas: the hybrid batch driver -/

/-- Shape of the per-image results of the batch loop: one result per image
id, in order, each carrying the computed `expected_vocab` and the
unconditional `success: True` / no error of the embedded analysis. -/
theorem runImagesHybrid_results (clf : Nat → String → List Pred) (vocab : List String)
    (i n : Nat) (s : HState) :
    (runImagesHybrid clf vocab i n s).2.length = n ∧
    ∀ k, k < n → ∃ res, (runImagesHybrid clf vocab i n s).2.get? k = some res ∧
      res.screenshot_id = i + k ∧ res.expected_vocab = expectedForId vocab (i + k) ∧
      res.success = true ∧ res.error = none := by
  induction n generalizing i s with
  | zero => exact ⟨rfl, fun k hk => absurd hk (by omega)⟩
  | succ n ih =>
    rw [runImagesHybrid]
    obtain ⟨ihlen, ihget⟩ := ih (i + 1)
      ((buildHybrid (analyzeImageHybrid clf s i (expectedForId vocab i)).1).1)
    refine ⟨by simpa using ihlen, ?_⟩
    intro k hk
    cases k with
    | zero =>
      refine ⟨(analyzeImageHybrid clf s i (expectedForId vocab i)).2, rfl, ?_, ?_, rfl, rfl⟩
      · simp [analyzeImageHybrid]
      · simp [analyzeImageHybrid]
    | succ k =>
      obtain ⟨res, hget, hid, hexp, hsucc, herr⟩ := ihget k (by omega)
      refine ⟨res, by simpa using hget, by rw [hid]; omega, ?_, hsucc, herr⟩
      rw [hexp]
      congr 1
      omega

/-- Counterexample to C9 (the claim as stated): with a one-term vocabulary
and images 4–6, images 5 and 6 have an out-of-range vocabulary index, yet
they are fully analyzed with `expected_vocab = None`, reported
`success: True` with no recorded reason, and the batch continues — no image
is skipped. -/
theorem out_of_range_index_counterexample :
    (runHybridAnalysis (fun _ _ => []) ["acorn"] 4 6).2 =
      [⟨4, some "acorn", false, false, true, none⟩,
       ⟨5, none, false, false, true, none⟩,
       ⟨6, none, false, false, true, none⟩] := by
  decide

/-- Claim C9 as amended: when the vocabulary index `i - 4` of an image id
`i` is out of range of the vocabulary list, `run_hybrid_analysis` does not
fail fast — `expected_vocab` silently defaults to `None`, the image is
analyzed anyway and reported successful with no recorded reason, and the
batch continues to produce one result per image id. -/
theorem out_of_range_index_silent_default (clf : Nat → String → List Pred)
    (vocab : List String) (startId endId i : Nat)
    (h1 : startId ≤ i) (h2 : i ≤ endId) (hoor : vocab.length ≤ i - 4) :
    (runHybridAnalysis clf vocab startId endId).2.length = endId + 1 - startId ∧
    ∃ res, (runHybridAnalysis clf vocab startId endId).2.get? (i - startId) = some res ∧
      res.screenshot_id = i ∧ res.expected_vocab = none ∧ res.success = true ∧
      res.error = none := by
  obtain ⟨hlen, hget⟩ := runImagesHybrid_results clf vocab startId
    (endId + 1 - startId) HState.init
  refine ⟨hlen, ?_⟩
  obtain ⟨res, hg, hid, hexp, hsucc, herr⟩ := hget (i - startId) (by omega)
  refine ⟨res, hg, by rw [hid]; omega, ?_, hsucc, herr⟩
  rw [hexp]
  have : startId + (i - startId) = i := by omega
  rw [this, expectedForId, dif_neg (by omega)]

/-- Witness for the amended C9: image 6 with a one-term vocabulary. -/
theorem out_of_range_index_silent_default_witness :
    (runHybridAnalysis (fun _ _ => []) ["acorn"] 4 6).2.length = 3 ∧
    ∃ res, (runHybridAnalysis (fun _ _ => []) ["acorn"] 4 6).2.get? 2 = some res ∧
      res.screenshot_id = 6 ∧ res.expected_vocab = none ∧ res.success = true ∧
      res.error = none :=
  out_of_range_index_silent_default (fun _ _ => []) ["acorn"] 4 6 6
    (by decide) (by decide) (by decide)

/-! ## Lemmas: lowercase invariant of the mapping tables -/

theorem discHStep_lower (v : String) (i : Nat) (p : Pred) (st : HState)
    (h : ∀ c t, alistGet st.class_mapping c = some t → pyLower t = t) :
    ∀ c t, alistGet (discHStep v i p st).class_mapping c = some t → pyLower t = t := by
  intro c t hct
  unfold discHStep at hct
  split at hct
  · exact h c t hct
  · split at hct
    · rw [show ({ st with
          class_mapping := alistSet st.class_mapping p.class_idx (pyLower v),
          validation_stats := (alistSet st.validation_stats p.class_idx
            ⟨v, 1, confPercent p, 1, none, confPercent p,
              "immediate_high_confidence"⟩) } : HState).class_mapping =
          alistSet st.class_mapping p.class_idx (pyLower v) from rfl,
        alistGet_set] at hct
      split at hct
      · cases hct
        exact pyLower_idem v
      · exact h c t hct
    · split at hct
      · exact h c t hct
      · split at hct
        · exact h c t hct
        · exact h c t hct

theorem discoverHybrid_lower (s : HState) (ps : List Pred) (exp : Option String)
    (h : ∀ c t, alistGet s.class_mapping c = some t → pyLower t = t) :
    ∀ c t, alistGet (discoverHybrid s ps exp).class_mapping c = some t →
      pyLower t = t := by
  cases exp with
  | none => exact h
  | some v =>
    by_cases hv : v = ""
    · simp only [discoverHybrid, if_pos hv]
      exact h
    · simp only [discoverHybrid, if_neg hv]
      have : ∀ (ps : List Pred) (i : Nat) (st : HState),
          (∀ c t, alistGet st.class_mapping c = some t → pyLower t = t) →
          ∀ c t, alistGet (discHGo v i ps st).class_mapping c = some t →
            pyLower t = t := by
        intro l
        induction l with
        | nil => exact fun i st h' => h'
        | cons p rest ih =>
          exact fun i st h' => ih (i + 1) (discHStep v i p st) (discHStep_lower v i p st h')
      exact this (ps.take 3) 0 s h

theorem buildHybrid_lower (s : HState)
    (h : ∀ c t, alistGet s.class_mapping c = some t → pyLower t = t) :
    ∀ c t, alistGet (buildHybrid s).1.class_mapping c = some t → pyLower t = t := by
  intro c t hct
  rw [buildHybrid_mapping, alistGet_update] at hct
  rcases hrev : alistGet (buildHybrid s).2.reverse c with _ | u <;> rw [hrev] at hct
  · simp only [Option.map_none', Option.getD_none] at hct
    exact h c t hct
  · simp only [Option.map_some', Option.getD_some] at hct
    have hut : u = t := Option.some.inj hct
    have hmem : (c, u) ∈ (buildHybrid s).2 := List.mem_reverse.mp (alistGet_mem hrev)
    rw [buildHybrid_nm] at hmem
    rcases buildH_fold_mem _ _ _ _ _ hmem with h' | ⟨l, _, _, _, hu⟩
    · simp at h'
    · rw [← hut, hu]
      exact pyLower_idem _

theorem buildBalanced_lower (s : BState)
    (h : ∀ c t, alistGet s.class_mapping c = some t → pyLower t = t) :
    ∀ c t, alistGet (buildBalanced s).1.class_mapping c = some t → pyLower t = t := by
  intro c t hct
  rw [buildBalanced_mapping, alistGet_update] at hct
  rcases hrev : alistGet (buildBalanced s).2.reverse c with _ | u <;> rw [hrev] at hct
  · simp only [Option.map_none', Option.getD_none] at hct
    exact h c t hct
  · simp only [Option.map_some', Option.getD_some] at hct
    have hut : u = t := Option.some.inj hct
    have hmem : (c, u) ∈ (buildBalanced s).2 := List.mem_reverse.mp (alistGet_mem hrev)
    rw [buildBalanced_nm] at hmem
    rcases buildB_fold_mem' _ _ _ _ hmem with h' | ⟨l, _, _, hu⟩
    · simp at h'
    · rw [← hut, hu]
      exact pyLower_idem _

/-- Claim C10: every vocab term stored in a class mapping table is
lowercase (a fixed point of lowercasing) — expected terms are lowercased on
mapping creation in the hybrid immediate fast-path, the hybrid rebuild and
the balanced rebuild — and the per-cell correct-detection flag compares
matched and expected terms case-insensitively, so it does not depend on the
casing of the expected vocabulary term. -/
theorem lowercase_mapping_invariant :
    (∀ (ops : List HOp) (c : Nat) (t : String),
      alistGet (hRun ops).class_mapping c = some t → pyLower t = t) ∧
    (∀ (ops : List BOp) (c : Nat) (t : String),
      alistGet (bRun ops).class_mapping c = some t → pyLower t = t) ∧
    (∀ (ms : List HMatch) (v v' : String), pyLower v = pyLower v' →
      cellCorrect ms (some v) = cellCorrect ms (some v')) := by
  refine ⟨?_, ?_, ?_⟩
  · have : ∀ (l : List HOp) (s : HState),
        (∀ c t, alistGet s.class_mapping c = some t → pyLower t = t) →
        ∀ c t, alistGet (l.foldl hStepOp s).class_mapping c = some t →
          pyLower t = t := by
      intro l
      induction l with
      | nil => exact fun s h => h
      | cons op rest ih =>
        intro s h
        refine ih (hStepOp s op) ?_
        cases op with
        | discover ps v => exact discoverHybrid_lower s ps v h
        | rebuild => exact buildHybrid_lower s h
    intro ops
    exact this ops HState.init (fun c t h => by simp [HState.init, alistGet] at h)
  · have : ∀ (l : List BOp) (s : BState),
        (∀ c t, alistGet s.class_mapping c = some t → pyLower t = t) →
        ∀ c t, alistGet (l.foldl bStepOp s).class_mapping c = some t →
          pyLower t = t := by
      intro l
      induction l with
      | nil => exact fun s h => h
      | cons op rest ih =>
        intro s h
        refine ih (bStepOp s op) ?_
        cases op with
        | discover ps v =>
          intro c t hct
          rw [bStepOp, discoverBalanced_mapping] at hct
          exact h c t hct
        | rebuild => exact buildBalanced_lower s h
    intro ops
    exact this ops BState.init (fun c t h => by simp [BState.init, alistGet] at h)
  · intro ms v v' hvv
    have hred : ∀ w : String, cellCorrect ms (some w) =
        if w = "" then false
        else ms.any (fun m => decide (pyLower m.vocab_term = pyLower w)) :=
      fun w => rfl
    rw [hred, hred]
    have hemp : (v = "") ↔ (v' = "") := by
      rw [← pyLower_eq_empty_iff v, ← pyLower_eq_empty_iff v', hvv]
    by_cases hv : v = ""
    · rw [if_pos hv, if_pos (hemp.mp hv)]
    · rw [if_neg hv, if_neg (fun h => hv (hemp.mpr h)), hvv]

/-- Witness for C10: the hybrid fast-path stores the lowercased term, and
the correctness comparison is insensitive to the expected term's casing. -/
theorem lowercase_mapping_invariant_witness :
    pyLower "acorn" = "acorn" ∧
    cellCorrect [⟨"acorn", 1, 71, 42, "immediate_high_confidence"⟩] (some "ACORN") =
      cellCorrect [⟨"acorn", 1, 71, 42, "immediate_high_confidence"⟩] (some "acorn") := by
  constructor
  · exact lowercase_mapping_invariant.1 [.discover [⟨42, mkRat 71 100⟩] (some "Acorn")]
      42 "acorn" (by decide)
  · exact lowercase_mapping_invariant.2.2 [⟨"acorn", 1, 71, 42,
      "immediate_high_confidence"⟩] "ACORN" "acorn" (by decide)

/-! ## Lemmas: the string-label matcher -/

theorem bestStep_snd_mono (cn : String) (θ : ℚ) (acc : Option String × ℚ) (t : String) :
    acc.2 ≤ (bestStep cn θ acc t).2 := by
  unfold bestStep
  split
  · next h => exact le_of_lt h.1
  · exact le_refl _

theorem bestFold_snd_mono (cn : String) (θ : ℚ) (vocab : List String)
    (acc : Option String × ℚ) :
    acc.2 ≤ (vocab.foldl (bestStep cn θ) acc).2 := by
  induction vocab generalizing acc with
  | nil => exact le_refl _
  | cons t rest ih =>
    rw [List.foldl_cons]
    exact le_trans (bestStep_snd_mono cn θ acc t) (ih (bestStep cn θ acc t))

/-- The final best score dominates every admissible vocabulary score. -/
theorem bestFold_snd_ub (cn : String) (θ : ℚ) (vocab : List String)
    (acc : Option String × ℚ) (t : String) (hmem : t ∈ vocab)
    (hθ : θ ≤ tierScore cn t) :
    tierScore cn t ≤ (vocab.foldl (bestStep cn θ) acc).2 := by
  induction vocab generalizing acc with
  | nil => simp at hmem
  | cons t' rest ih =>
    rw [List.foldl_cons]
    rcases List.mem_cons.mp hmem with rfl | hmem'
    · refine le_trans ?_ (bestFold_snd_mono cn θ rest (bestStep cn θ acc t))
      unfold bestStep
      split
      · exact le_refl _
      · next h =>
        rcases not_and_or.mp h with h' | h'
        · exact le_of_not_lt h'
        · exact absurd hθ (by simpa using h')
    · exact ih (bestStep cn θ acc t') hmem'

/-- Soundness of the inner loop: the accumulator is either untouched or
holds an admissible vocabulary term with its own tier score. -/
theorem bestFold_sound (cn : String) (θ : ℚ) (vocab : List String)
    (acc : Option String × ℚ) :
    vocab.foldl (bestStep cn θ) acc = acc ∨
      ∃ t ∈ vocab, vocab.foldl (bestStep cn θ) acc =
        (some t, tierScore cn t) ∧ θ ≤ tierScore cn t ∧ acc.2 < tierScore cn t := by
  induction vocab generalizing acc with
  | nil => exact Or.inl rfl
  | cons t' rest ih =>
    rw [List.foldl_cons]
    rcases ih (bestStep cn θ acc t') with h | ⟨t, hmem, heq, hθ, hlt⟩
    · rw [h]
      unfold bestStep
      split
      · next hcond =>
        exact Or.inr ⟨t', List.mem_cons_self _ _, rfl, hcond.2, hcond.1⟩
      · exact Or.inl rfl
    · refine Or.inr ⟨t, List.mem_cons_of_mem _ hmem, heq, hθ,
        lt_of_le_of_lt (bestStep_snd_mono cn θ acc t') hlt⟩

/-- The outer loop of `_find_vocab_matches` is the in-order `filterMap` of
the per-prediction best match. -/
theorem findVocabMatches_eq_filterMap (preds : List LPred) (vocab : List String)
    (θ : ℚ) :
    findVocabMatches preds vocab θ = preds.filterMap (matchFor vocab θ) := by
  have : ∀ (l : List LPred) (acc : List LMatch),
      l.foldl (fun acc p =>
        match (matchFor vocab θ p) with
        | none => acc
        | some m => acc ++ [m]) acc = acc ++ l.filterMap (matchFor vocab θ) := by
    intro l
    induction l with
    | nil => intro acc; simp
    | cons p rest ih =>
      intro acc
      rw [List.foldl_cons]
      rcases h : matchFor vocab θ p with _ | m
      · simp only [h, List.filterMap_cons]
        exact ih acc
      · simp only [h, List.filterMap_cons]
        rw [ih (acc ++ [m])]
        simp
  have h := this preds []
  simpa using h

/-- Counterexample to C8 (the claim as stated): for predictions with class
names `"x b"` then `"b"` against vocabulary `["b"]`, `_find_vocab_matches`
returns scores `[0.8, 1.0]` in prediction order — the returned match list
is not sorted by score descending (the function has no sort). -/
theorem string_match_sorted_counterexample :
    (findVocabMatches [⟨"x b", 1⟩, ⟨"b", 1⟩] ["b"] (mkRat 3 10)).map
      (fun m => m.match_score) = [mkRat 4 5, 1] ∧
    ¬ List.Sorted (· ≥ ·) ((findVocabMatches [⟨"x b", 1⟩, ⟨"b", 1⟩] ["b"]
      (mkRat 3 10)).map (fun m => m.match_score)) := by
  decide

/-- Claim C8 as amended: each prediction's class name is scored against
every vocabulary term independently by the 4-tier cascade (`tierScore`:
exact `1.0`, substring `0.8`, shared word `0.6`, else the sequence ratio);
per prediction the best-scoring term meeting the threshold is kept (the
final best score dominates every admissible term's score), and the
resulting match list is returned in *prediction order*, not sorted by
score. -/
theorem string_match_cascade :
    (∀ (preds : List LPred) (vocab : List String) (θ : ℚ),
      findVocabMatches preds vocab θ = preds.filterMap (matchFor vocab θ)) ∧
    (∀ (cn : String) (θ : ℚ) (vocab : List String) (t : String) (sc : ℚ),
      bestLoop cn θ vocab = (some t, sc) →
      t ∈ vocab ∧ sc = tierScore cn t ∧ θ ≤ sc ∧ 0 < sc ∧
        ∀ t' ∈ vocab, θ ≤ tierScore cn t' → tierScore cn t' ≤ sc) ∧
    (∀ (cn : String) (θ : ℚ) (vocab : List String),
      (∃ t ∈ vocab, θ ≤ tierScore cn t ∧ 0 < tierScore cn t) →
      (bestLoop cn θ vocab).1 ≠ none) := by
  refine ⟨findVocabMatches_eq_filterMap, ?_, ?_⟩
  · intro cn θ vocab t sc h
    rw [bestLoop] at h
    rcases bestFold_sound cn θ vocab (none, 0) with h' | ⟨t₀, hmem, heq, hθ, hlt⟩
    · rw [h'] at h
      cases (Prod.mk.injEq _ _ _ _ ▸ h.symm).1
    · rw [heq] at h
      obtain ⟨h1, h2⟩ := Prod.mk.injEq _ _ _ _ ▸ h
      cases Option.some.inj h1
      refine ⟨hmem, h2.symm, by rw [← h2]; exact hθ, by rw [← h2]; exact hlt, ?_⟩
      intro t' ht' hθ'
      have hub := bestFold_snd_ub cn θ vocab (none, 0) t' ht' hθ'
      rw [heq] at hub
      rw [← h2]
      exact hub
  · intro cn θ vocab ⟨t, hmem, hθ, hpos⟩
    have hub := bestFold_snd_ub cn θ vocab (none, 0) t hmem hθ
    rcases bestFold_sound cn θ vocab (none, 0) with h' | ⟨t₀, _, heq, _, _⟩
    · rw [bestLoop, h']
      rw [h'] at hub
      exact absurd (lt_of_lt_of_le hpos hub) (by simp)
    · rw [bestLoop, heq]
      simp

/-- Witness for the amended C8: a concrete instance of the filterMap shape
and of the best-match characterization. -/
theorem string_match_cascade_witness :
    findVocabMatches [⟨"b", 1⟩] ["b"] (mkRat 3 10) =
      List.filterMap (matchFor ["b"] (mkRat 3 10)) [⟨"b", 1⟩] ∧
    "b" ∈ ["b"] ∧ (1 : ℚ) = tierScore "b" "b" := by
  refine ⟨string_match_cascade.1 [⟨"b", 1⟩] ["b"] (mkRat 3 10), ?_, ?_⟩
  · exact (string_match_cascade.2.1 "b" (mkRat 3 10) ["b"] "b" 1 (by decide)).1
  · exact (string_match_cascade.2.1 "b" (mkRat 3 10) ["b"] "b" 1 (by decide)).2.1
